import Mathlib

/-!
# Verification of the sskr-tool core (Bytewords codec, share metadata, split and recover orchestration)

Shallow embedding of the Rust sources `src/bytewords.rs`, `src/sskr_shares.rs`,
`src/split.rs` and `src/recover.rs`.

Conventions of the embedding:
* Rust strings are modelled as `List Char`; bytes (`u8`) as `Nat` together with
  explicit `< 256` hypotheses or `% 256` reductions where the code relies on them.
* Fallible Rust functions (`Result<_, Error>`) become `Except E _` with one
  inductive error type per module, whose constructors carry the data interpolated
  into the Rust `anyhow!` message.
* External collaborators (the sskr secret-sharing engine, the dcbor envelope,
  the bip39 mnemonic codec) are opaque function parameters, except for the two
  constants/constructors the spec pins down, which are modelled from the spec
  and marked as such in their doc comments.
* The iteration order of a Rust `HashMap` is unspecified; wherever `recover.rs`
  iterates one, the embedding takes the iteration order as an explicit `order`
  parameter, constrained to be an enumeration (without duplicates) of the key set.
-/

namespace SskrTool

/-! ## Bytewords word table (`src/bytewords.rs`)

The Rust source stores `WORDS` as a single 1024-character string and
`index_to_byteword` slices characters `4*i .. 4*i+4`.  We store the same table
as the list of its 256 four-character slices, in the same order. -/

def WORDS : List String := [
   "able", "acid", "also", "apex", "aqua", "arch", "atom", "aunt", "away", "axis", "back", "bald", "barn", "belt", "beta", "bias",
   "blue", "body", "brag", "brew", "bulb", "buzz", "calm", "cash", "cats", "chef", "city", "claw", "code", "cola", "cook", "cost",
   "crux", "curl", "cusp", "cyan", "dark", "data", "days", "deli", "dice", "diet", "door", "down", "draw", "drop", "drum", "dull",
   "duty", "each", "easy", "echo", "edge", "epic", "even", "exam", "exit", "eyes", "fact", "fair", "fern", "figs", "film", "fish",
   "fizz", "flap", "flew", "flux", "foxy", "free", "frog", "fuel", "fund", "gala", "game", "gear", "gems", "gift", "girl", "glow",
   "good", "gray", "grim", "guru", "gush", "gyro", "half", "hang", "hard", "hawk", "heat", "help", "high", "hill", "holy", "hope",
   "horn", "huts", "iced", "idea", "idle", "inch", "inky", "into", "iris", "iron", "item", "jade", "jazz", "join", "jolt", "jowl",
   "judo", "jugs", "jump", "junk", "jury", "keep", "keno", "kept", "keys", "kick", "kiln", "king", "kite", "kiwi", "knob", "lamb",
   "lava", "lazy", "leaf", "legs", "liar", "limp", "lion", "list", "logo", "loud", "love", "luau", "luck", "lung", "main", "many",
   "math", "maze", "memo", "menu", "meow", "mild", "mint", "miss", "monk", "nail", "navy", "need", "news", "next", "noon", "note",
   "numb", "obey", "oboe", "omit", "onyx", "open", "oval", "owls", "paid", "part", "peck", "play", "plus", "poem", "pool", "pose",
   "puff", "puma", "purr", "quad", "quiz", "race", "ramp", "real", "redo", "rich", "road", "rock", "roof", "ruby", "ruin", "runs",
   "rust", "safe", "saga", "scar", "sets", "silk", "skew", "slot", "soap", "solo", "song", "stub", "surf", "swan", "taco", "task",
   "taxi", "tent", "tied", "time", "tiny", "toil", "tomb", "toys", "trip", "tuna", "twin", "ugly", "undo", "unit", "urge", "user",
   "vast", "very", "veto", "vial", "vibe", "view", "visa", "void", "vows", "wall", "wand", "warm", "wasp", "wave", "waxy", "webs",
   "what", "when", "whiz", "wolf", "work", "yank", "yawn", "yell", "yoga", "yurt", "zaps", "zero", "zest", "zinc", "zone", "zoom"]

/-- Rust `fn index_to_byteword(i: u8) -> &'static str`: the `i`-th four-letter word. -/
def index_to_byteword (i : Nat) : List Char :=
  (WORDS.getD i "").toList

/-- Model of the `WORD_TO_INDEX_LOOKUP` hash map, built by inserting
`index_to_byteword i ↦ i` for `i = 0..=255`.  As the 256 words are pairwise
distinct (proved below), hash-map lookup coincides with the first index whose
word equals the query. -/
def byteword_to_index_opt (w : List Char) : Option Nat :=
  (List.range 256).find? (fun i => index_to_byteword i == w)

/-- Rust `fn byteword_to_minimal_string`: first and last letter of a word.
The Rust code `unwrap`s `chars().next()` and `chars().last()`; it is only ever
applied to the four-letter table words, for which both exist. -/
def byteword_to_minimal_string (w : List Char) : List Char :=
  [w.headD ' ', w.getLastD ' ']

/-- Model of the `MINIMAL_WORD_TO_WORD_LOOKUP` hash map, built by inserting
`minimal(word i) ↦ word i` for `i = 0..=255`.  As the 256 minimal forms are
pairwise distinct (proved below), hash-map lookup coincides with the first
matching entry. -/
def minimal_to_byteword_opt (m : List Char) : Option (List Char) :=
  ((List.range 256).find?
      (fun i => byteword_to_minimal_string (index_to_byteword i) == m)).map
    index_to_byteword

/-! ## CRC-32 checksum (`byteword_checksum`)

`Crc::<u32>::new(&CRC_32_ISO_HDLC).checksum(bytes)`: the standard reflected
CRC-32 (polynomial `0xEDB88320`, initial value `0xFFFFFFFF`, final xor
`0xFFFFFFFF`), written out bitwise. -/

def crc32_poly : Nat := 0xEDB88320

def crc32_step (r : Nat) : Nat :=
  if r % 2 = 1 then (r / 2) ^^^ crc32_poly else r / 2

def crc32_update (r b : Nat) : Nat :=
  crc32_step^[8] (r ^^^ b % 256)

def crc32 (bytes : List Nat) : Nat :=
  (bytes.foldl crc32_update 0xFFFFFFFF) ^^^ 0xFFFFFFFF

/-- Rust `fn byteword_checksum(bytes: &[u8]) -> [u8; 4]`: CRC-32 in big-endian byte
order (`to_be_bytes`). -/
def byteword_checksum (bytes : List Nat) : List Nat :=
  [crc32 bytes / 2 ^ 24 % 256, crc32 bytes / 2 ^ 16 % 256,
   crc32 bytes / 2 ^ 8 % 256, crc32 bytes % 256]

/-! ## Encoding (`byteword_string`, `byteword_string_no_checksum`) -/

/-- Rust `Vec<String>::join(" ")` on the word list. -/
def joinWords : List (List Char) → List Char
  | [] => []
  | [w] => w
  | w :: rest => w ++ ' ' :: joinWords rest

/-- Rust `pub fn byteword_string_no_checksum(bytes: &[u8], minimal: &bool) -> String`. -/
def byteword_string_no_checksum (bytes : List Nat) (minimal : Bool) : List Char :=
  let words := bytes.map (fun i =>
    if minimal then byteword_to_minimal_string (index_to_byteword i)
    else index_to_byteword i)
  if minimal then words.flatten else joinWords words

/-- Rust `pub fn byteword_string(bytes: &[u8], minimal: &bool) -> String`:
append the 4-byte checksum, then encode. -/
def byteword_string (bytes : List Nat) (minimal : Bool) : List Char :=
  byteword_string_no_checksum (bytes ++ byteword_checksum bytes) minimal

/-! ## Decoding (`byteword_string_to_bytes`) -/

/-- The three failure modes of the decoder; each constructor carries the data
interpolated into the corresponding `anyhow!` message. -/
inductive BWError : Type
  | unknownWord (token : List Char)
  | tooShort (input : List Char)
  | checksumInvalid (input : List Char)
deriving DecidableEq

/-- Rust `chars.chunks(2)`: split into consecutive chunks of two characters,
the last chunk possibly a singleton. -/
def chunks2 : List Char → List (List Char)
  | [] => []
  | [c] => [[c]]
  | c1 :: c2 :: rest => [c1, c2] :: chunks2 rest

/-- Rust's `Iterator::collect::<Result<Vec<_>, _>>`: evaluate `f` on each element
in order, stopping at the first error. -/
def collectExcept {α β ε : Type} (f : α → Except ε β) : List α → Except ε (List β)
  | [] => .ok []
  | x :: rest =>
    match f x with
    | .error e => .error e
    | .ok y =>
      match collectExcept f rest with
      | .error e => .error e
      | .ok ys => .ok (y :: ys)

/-- Rust `fn byteword_minimal_string_to_byteword(input: &str) -> Result<Vec<&str>, Error>`:
resolve each two-character chunk through the minimal-form lookup; the first
unresolvable chunk aborts with its "Not a valid byteword" error. -/
def byteword_minimal_string_to_byteword (input : List Char) :
    Except BWError (List (List Char)) :=
  collectExcept (fun ch =>
    match minimal_to_byteword_opt ch with
    | some w => .ok w
    | none => .error (.unknownWord ch)) (chunks2 input)

/-- Rust `str::split` on a single-character pattern: always returns at least one
(possibly empty) piece, empty pieces between consecutive separators included. -/
def splitOnChar (sep : Char) : List Char → List (List Char)
  | [] => [[]]
  | c :: rest =>
    if c = sep then [] :: splitOnChar sep rest
    else
      match splitOnChar sep rest with
      | [] => [[c]]
      | t :: ts => (c :: t) :: ts

/-- Body of `byteword_string_to_bytes` from the resolved word list on: the
`contains_key` loop over the words (first unknown word aborts), the length
check, and the checksum check.  The `words.map(byteword_to_index)` step of the
source indexes the hash map directly (a panic if absent), but runs only after
the loop has checked every word; it is modelled by `Option.getD _ 0` under
that guard. -/
def decode_words (input : List Char) (words : List (List Char)) :
    Except BWError (List Nat) :=
  match words.find? (fun w => (byteword_to_index_opt w).isNone) with
  | some w => .error (.unknownWord w)
  | none =>
    let all_bytes := words.map (fun w => (byteword_to_index_opt w).getD 0)
    if all_bytes.length < 5 then .error (.tooShort input)
    else
      let bytes := all_bytes.take (all_bytes.length - 4)
      let checksum := all_bytes.drop (all_bytes.length - 4)
      if checksum = byteword_checksum bytes then .ok bytes
      else .error (.checksumInvalid input)

/-- Rust `pub fn byteword_string_to_bytes(input: &str, minimal: &bool) -> Result<Vec<u8>, Error>`. -/
def byteword_string_to_bytes (input : List Char) (minimal : Bool) :
    Except BWError (List Nat) :=
  match
    (if minimal then byteword_minimal_string_to_byteword input
     else .ok (splitOnChar ' ' input)) with
  | .error e => .error e
  | .ok words => decode_words input words

/-! ## Generic lemmas about `collectExcept` -/

theorem collectExcept_ok_of_forall {α β ε : Type} (f : α → Except ε β) (g : α → β) :
    ∀ (l : List α), (∀ x ∈ l, f x = .ok (g x)) →
      collectExcept f l = .ok (l.map g) := by
  intro l
  induction l with
  | nil => intro _; rfl
  | cons x rest ih =>
    intro h
    have hx := h x (List.mem_cons_self x rest)
    have hrest := ih (fun y hy => h y (List.mem_cons_of_mem x hy))
    simp [collectExcept, hx, hrest]

theorem collectExcept_ok_forall₂ {α β ε : Type} (f : α → Except ε β) :
    ∀ (l : List α) (ys : List β), collectExcept f l = .ok ys →
      List.Forall₂ (fun x y => f x = .ok y) l ys := by
  intro l
  induction l with
  | nil =>
    intro ys h
    simp only [collectExcept] at h
    cases h
    exact List.Forall₂.nil
  | cons x rest ih =>
    intro ys h
    simp only [collectExcept] at h
    cases hx : f x with
    | error e => rw [hx] at h; cases h
    | ok y =>
      rw [hx] at h
      cases hrest : collectExcept f rest with
      | error e => rw [hrest] at h; cases h
      | ok ys' =>
        rw [hrest] at h
        cases h
        exact List.Forall₂.cons hx (ih ys' hrest)

theorem collectExcept_error_of_exists {α β ε : Type} (f : α → Except ε β) :
    ∀ (l : List α), (∃ x ∈ l, ∃ e, f x = .error e) →
      ∃ x ∈ l, ∃ e, f x = .error e ∧ collectExcept f l = .error e := by
  intro l
  induction l with
  | nil => rintro ⟨x, hx, _⟩; cases hx
  | cons a rest ih =>
    rintro ⟨x, hx, e, he⟩
    cases ha : f a with
    | error ea =>
      exact ⟨a, List.mem_cons_self a rest, ea, ha, by simp [collectExcept, ha]⟩
    | ok ya =>
      have hxrest : x ∈ rest := by
        rcases List.mem_cons.mp hx with h | h
        · subst h; rw [ha] at he; cases he
        · exact h
      rcases ih ⟨x, hxrest, e, he⟩ with ⟨x', hx', e', he', hcoll⟩
      refine ⟨x', List.mem_cons_of_mem a hx', e', he', ?_⟩
      simp [collectExcept, ha, hcoll]

/-- If every element but the last maps to `.ok` and the last fails, the whole
collection fails with the last element's error. -/
theorem collectExcept_error_last {α β ε : Type} (f : α → Except ε β) :
    ∀ (l : List α) (x : α) (e : ε),
      (∀ y ∈ l, ∃ b, f y = .ok b) → f x = .error e →
      collectExcept f (l ++ [x]) = .error e := by
  intro l
  induction l with
  | nil => intro x e _ hx; simp [collectExcept, hx]
  | cons a rest ih =>
    intro x e h hx
    rcases h a (List.mem_cons_self a rest) with ⟨b, hb⟩
    have := ih x e (fun y hy => h y (List.mem_cons_of_mem a hy)) hx
    simp [collectExcept, hb, this]

theorem collectExcept_length {α β ε : Type} (f : α → Except ε β)
    (l : List α) (ys : List β) (h : collectExcept f l = .ok ys) :
    ys.length = l.length :=
  ((collectExcept_ok_forall₂ f l ys h).length_eq).symm

/-! ## Finite facts about the word table, proved by evaluation -/

set_option maxRecDepth 100000 in
theorem words_map_nodup : ((List.range 256).map index_to_byteword).Nodup := by decide

set_option maxRecDepth 100000 in
set_option maxHeartbeats 2000000 in
theorem minimal_map_nodup :
    ((List.range 256).map
      (fun i => byteword_to_minimal_string (index_to_byteword i))).Nodup := by decide

set_option maxRecDepth 10000 in
theorem word_length (i : Nat) (h : i < 256) : (index_to_byteword i).length = 4 := by
  have : ∀ i : Fin 256, (index_to_byteword i.val).length = 4 := by decide
  exact this ⟨i, h⟩

set_option maxRecDepth 10000 in
theorem word_no_space (i : Nat) (h : i < 256) : ' ' ∉ index_to_byteword i := by
  have : ∀ i : Fin 256, ' ' ∉ index_to_byteword i.val := by decide
  exact this ⟨i, h⟩

/-! ## Lookup round-trips -/

theorem find?_map_nodup {α β : Type} [BEq α] [LawfulBEq α] (f : β → α) :
    ∀ (l : List β) (i : β), (l.map f).Nodup → i ∈ l →
      l.find? (fun j => f j == f i) = some i := by
  intro l
  induction l with
  | nil => intro i _ hi; cases hi
  | cons j rest ih =>
    intro i hnd hi
    rw [List.map_cons, List.nodup_cons] at hnd
    rcases List.mem_cons.mp hi with h | h
    · subst h
      exact List.find?_cons_of_pos _ (by simp)
    · have hne : (f j == f i) = false := by
        simp only [beq_eq_false_iff_ne, ne_eq]
        intro heq
        exact hnd.1 (heq ▸ List.mem_map_of_mem f h)
      rw [List.find?_cons_of_neg _ (by simp [hne]), ih i hnd.2 h]

theorem byteword_to_index_opt_roundtrip (i : Nat) (h : i < 256) :
    byteword_to_index_opt (index_to_byteword i) = some i := by
  have h1 : (List.range 256).find?
      (fun j => index_to_byteword j == index_to_byteword i) = some i :=
    find?_map_nodup index_to_byteword (List.range 256) i words_map_nodup
      (List.mem_range.mpr h)
  unfold byteword_to_index_opt
  exact h1

theorem minimal_to_byteword_opt_roundtrip (i : Nat) (h : i < 256) :
    minimal_to_byteword_opt (byteword_to_minimal_string (index_to_byteword i)) =
      some (index_to_byteword i) := by
  have h1 : (List.range 256).find?
      (fun j => byteword_to_minimal_string (index_to_byteword j) ==
        byteword_to_minimal_string (index_to_byteword i)) = some i :=
    find?_map_nodup (fun i => byteword_to_minimal_string (index_to_byteword i))
      (List.range 256) i minimal_map_nodup (List.mem_range.mpr h)
  unfold minimal_to_byteword_opt
  rw [h1]
  rfl

theorem byteword_to_index_opt_some (w : List Char) (j : Nat)
    (h : byteword_to_index_opt w = some j) :
    j < 256 ∧ index_to_byteword j = w := by
  unfold byteword_to_index_opt at h
  have hj := List.mem_range.mp (List.mem_of_find?_eq_some h)
  have := List.find?_some h
  simp only [beq_iff_eq] at this
  exact ⟨hj, this⟩

theorem minimal_to_byteword_opt_some (m w : List Char)
    (h : minimal_to_byteword_opt m = some w) :
    ∃ j, j < 256 ∧ w = index_to_byteword j ∧
      byteword_to_minimal_string (index_to_byteword j) = m := by
  unfold minimal_to_byteword_opt at h
  cases hf : (List.range 256).find?
      (fun i => byteword_to_minimal_string (index_to_byteword i) == m) with
  | none => rw [hf] at h; cases h
  | some j =>
    rw [hf] at h
    have hj := List.mem_range.mp (List.mem_of_find?_eq_some hf)
    have hpred := List.find?_some hf
    simp only [beq_iff_eq] at hpred
    rw [show Option.map index_to_byteword (some j) = some (index_to_byteword j) from rfl] at h
    cases h
    exact ⟨j, hj, rfl, hpred⟩

/-! ## Splitting and joining lemmas -/

theorem splitOnChar_ne_nil (sep : Char) : ∀ s : List Char, splitOnChar sep s ≠ [] := by
  intro s
  induction s with
  | nil => simp [splitOnChar]
  | cons c rest ih =>
    by_cases hc : c = sep
    · simp [splitOnChar, hc]
    · simp only [splitOnChar, if_neg hc]
      cases splitOnChar sep rest with
      | nil => simp
      | cons t ts => simp

theorem splitOnChar_no_sep (sep : Char) :
    ∀ w : List Char, sep ∉ w → splitOnChar sep w = [w] := by
  intro w
  induction w with
  | nil => intro _; rfl
  | cons c w' ih =>
    intro h
    have hc : ¬ c = sep := fun hc => h (hc ▸ List.mem_cons_self c w')
    have hw' : sep ∉ w' := fun hw => h (List.mem_cons_of_mem c hw)
    simp only [splitOnChar, if_neg hc, ih hw']

theorem splitOnChar_word_sep (sep : Char) :
    ∀ (w s : List Char), sep ∉ w →
      splitOnChar sep (w ++ sep :: s) = w :: splitOnChar sep s := by
  intro w
  induction w with
  | nil => intro s _; simp [splitOnChar]
  | cons c w' ih =>
    intro s h
    have hc : ¬ c = sep := fun hc => h (hc ▸ List.mem_cons_self c w')
    have hw' : sep ∉ w' := fun hw => h (List.mem_cons_of_mem c hw)
    simp only [List.cons_append, splitOnChar, if_neg hc, List.append_eq, ih s hw']

theorem splitOnChar_joinWords :
    ∀ ws : List (List Char), ws ≠ [] → (∀ w ∈ ws, ' ' ∉ w) →
      splitOnChar ' ' (joinWords ws) = ws := by
  intro ws
  induction ws with
  | nil => intro h _; exact absurd rfl h
  | cons w rest ih =>
    intro _ hno
    cases rest with
    | nil => exact splitOnChar_no_sep ' ' w (hno w (List.mem_cons_self w []))
    | cons w2 rest' =>
      have hjw : joinWords (w :: w2 :: rest') = w ++ ' ' :: joinWords (w2 :: rest') := rfl
      rw [hjw, splitOnChar_word_sep ' ' w _ (hno w (List.mem_cons_self w _)),
        ih (by simp) (fun v hv => hno v (List.mem_cons_of_mem w hv))]

theorem chunks2_flatten :
    ∀ ls : List (List Char), (∀ l ∈ ls, l.length = 2) →
      chunks2 ls.flatten = ls := by
  intro ls
  induction ls with
  | nil => intro _; rfl
  | cons l rest ih =>
    intro h
    have hl := h l (List.mem_cons_self l rest)
    match l, hl with
    | [c1, c2], _ =>
      have : ([c1, c2] :: rest).flatten = c1 :: c2 :: rest.flatten := by simp
      rw [this]
      show [c1, c2] :: chunks2 rest.flatten = [c1, c2] :: rest
      rw [ih (fun x hx => h x (List.mem_cons_of_mem _ hx))]

theorem byteword_to_minimal_string_length (w : List Char) :
    (byteword_to_minimal_string w).length = 2 := rfl

/-! ## Facts about the checksum bytes -/

theorem byteword_checksum_lt (l : List Nat) : ∀ x ∈ byteword_checksum l, x < 256 := by
  intro x hx
  simp only [byteword_checksum, List.mem_cons, List.not_mem_nil, or_false] at hx
  rcases hx with h | h | h | h <;> subst h <;>
    exact Nat.mod_lt _ (by norm_num)

theorem byteword_checksum_length (l : List Nat) : (byteword_checksum l).length = 4 := rfl

/-! ## Decoding a list of table words succeeds -/

theorem decode_words_of_table (input : List Char) (data : List Nat)
    (hd : ∀ x ∈ data, x < 256) (h5 : 5 ≤ data.length)
    (hck : data.drop (data.length - 4) = byteword_checksum (data.take (data.length - 4))) :
    decode_words input (data.map index_to_byteword) =
      .ok (data.take (data.length - 4)) := by
  have hfind : (data.map index_to_byteword).find?
      (fun w => (byteword_to_index_opt w).isNone) = none := by
    rw [List.find?_eq_none]
    intro w hw
    rcases List.mem_map.mp hw with ⟨x, hx, rfl⟩
    rw [byteword_to_index_opt_roundtrip x (hd x hx)]
    simp
  have hbytes : (data.map index_to_byteword).map
      (fun w => (byteword_to_index_opt w).getD 0) = data := by
    rw [List.map_map]
    have : ∀ x ∈ data, ((byteword_to_index_opt (index_to_byteword x)).getD 0) = x := by
      intro x hx
      rw [byteword_to_index_opt_roundtrip x (hd x hx)]
      rfl
    calc data.map (fun x => (byteword_to_index_opt (index_to_byteword x)).getD 0)
        = data.map id := List.map_congr_left this
      _ = data := List.map_id data
  unfold decode_words
  rw [hfind]
  simp only [hbytes, List.length_map]
  rw [if_neg (by omega), if_pos hck]

/-- C1. For every byte sequence `b` of length at least 1 (entries below 256,
i.e. `u8` values) and both settings of the `minimal` flag, decoding the
encoding round-trips: `byteword_string_to_bytes (byteword_string b m) m = Ok b`. -/
theorem byteword_string_roundtrip (b : List Nat) (hne : b ≠ [])
    (hb : ∀ x ∈ b, x < 256) (m : Bool) :
    byteword_string_to_bytes (byteword_string b m) m = .ok b := by
  set data := b ++ byteword_checksum b with hdata_def
  have hd : ∀ x ∈ data, x < 256 := by
    intro x hx
    rcases List.mem_append.mp hx with h | h
    · exact hb x h
    · exact byteword_checksum_lt b x h
  have hlen : data.length = b.length + 4 := by
    simp [hdata_def, byteword_checksum_length]
  have hbpos : 0 < b.length := List.length_pos.mpr hne
  have h5 : 5 ≤ data.length := by omega
  have hb4 : data.length - 4 = b.length := by omega
  have htake : data.take (data.length - 4) = b := by
    rw [hb4, hdata_def, List.take_left]
  have hck : data.drop (data.length - 4) = byteword_checksum (data.take (data.length - 4)) := by
    rw [htake, hb4, hdata_def, List.drop_left]
  cases m with
  | false =>
    have henc : byteword_string b false = joinWords (data.map index_to_byteword) := by
      simp [byteword_string, byteword_string_no_checksum, hdata_def]
    have hsplit : splitOnChar ' ' (joinWords (data.map index_to_byteword)) =
        data.map index_to_byteword := by
      apply splitOnChar_joinWords
      · simp only [ne_eq, List.map_eq_nil_iff]
        intro h
        rw [h] at hlen
        simp at hlen
      · intro w hw
        rcases List.mem_map.mp hw with ⟨x, hx, rfl⟩
        exact word_no_space x (hd x hx)
    have hstep : byteword_string_to_bytes (byteword_string b false) false =
        decode_words (byteword_string b false) (data.map index_to_byteword) := by
      unfold byteword_string_to_bytes
      rw [if_neg Bool.false_ne_true, henc, hsplit]
    rw [hstep, decode_words_of_table _ data hd h5 hck, htake]
  | true =>
    have henc : byteword_string b true =
        (data.map (fun x => byteword_to_minimal_string (index_to_byteword x))).flatten := by
      simp [byteword_string, byteword_string_no_checksum, hdata_def]
    have hchunks : chunks2 ((data.map
        (fun x => byteword_to_minimal_string (index_to_byteword x))).flatten) =
        data.map (fun x => byteword_to_minimal_string (index_to_byteword x)) := by
      apply chunks2_flatten
      intro l hl
      rcases List.mem_map.mp hl with ⟨x, _, rfl⟩
      exact byteword_to_minimal_string_length _
    have hcollect : byteword_minimal_string_to_byteword (byteword_string b true) =
        .ok (data.map index_to_byteword) := by
      unfold byteword_minimal_string_to_byteword
      rw [henc, hchunks]
      have hmap : ∀ ch ∈ data.map (fun x => byteword_to_minimal_string (index_to_byteword x)),
          (match minimal_to_byteword_opt ch with
            | some w => (Except.ok w : Except BWError (List Char))
            | none => .error (.unknownWord ch)) =
          .ok ((minimal_to_byteword_opt ch).getD []) := by
        intro ch hch
        rcases List.mem_map.mp hch with ⟨x, hx, rfl⟩
        rw [minimal_to_byteword_opt_roundtrip x (hd x hx)]
        rfl
      rw [collectExcept_ok_of_forall _ _ _ hmap, List.map_map]
      refine congrArg Except.ok (List.map_congr_left ?_)
      intro x hx
      show ((minimal_to_byteword_opt (byteword_to_minimal_string (index_to_byteword x))).getD [])
        = index_to_byteword x
      rw [minimal_to_byteword_opt_roundtrip x (hd x hx)]
      rfl
    have hstep : byteword_string_to_bytes (byteword_string b true) true =
        decode_words (byteword_string b true) (data.map index_to_byteword) := by
      unfold byteword_string_to_bytes
      rw [if_pos rfl, hcollect]
    rw [hstep, decode_words_of_table _ data hd h5 hck, htake]

/-- C8. The 256 two-character minimal forms derived by taking the first and
last letter of each of the 256 four-letter words of the table are pairwise
distinct, so minimal-form decoding is unambiguous. -/
theorem minimal_forms_pairwise_distinct :
    ((List.range 256).map
      (fun i => byteword_to_minimal_string (index_to_byteword i))).Nodup :=
  minimal_map_nodup

/-! ## Characterizing the decoder's error behaviour -/

/-- The token stream the decoder resolves: two-character chunks in minimal mode,
space-separated tokens in full mode. -/
def tokenize (input : List Char) (m : Bool) : List (List Char) :=
  if m then chunks2 input else splitOnChar ' ' input

/-- Resolution of one token to a byte value: through the minimal-form table and
then the word table in minimal mode, directly through the word table otherwise. -/
def tokenResolve (m : Bool) (t : List Char) : Option Nat :=
  if m then (minimal_to_byteword_opt t).bind byteword_to_index_opt
  else byteword_to_index_opt t

/-- The byte values of a fully resolved token stream. -/
def decodedBytes (input : List Char) (m : Bool) : List Nat :=
  (tokenize input m).map (fun t => (tokenResolve m t).getD 0)

theorem wordsBytes_def (ws : List (List Char)) :
    ws.map (fun w => (byteword_to_index_opt w).getD 0) =
      ws.map (fun w => (byteword_to_index_opt w).getD 0) := rfl

theorem decode_words_unknown (input : List Char) (ws : List (List Char))
    (h : ∃ t ∈ ws, byteword_to_index_opt t = none) :
    ∃ t, decode_words input ws = .error (.unknownWord t) ∧ t ∈ ws ∧
      byteword_to_index_opt t = none := by
  have hsome : (ws.find? (fun w => (byteword_to_index_opt w).isNone)).isSome := by
    rw [List.find?_isSome]
    rcases h with ⟨t, ht, hn⟩
    exact ⟨t, ht, by simp [hn]⟩
  rcases Option.isSome_iff_exists.mp hsome with ⟨t, hfind⟩
  have htmem := List.mem_of_find?_eq_some hfind
  have hp := List.find?_some hfind
  change (byteword_to_index_opt t).isNone = true at hp
  have htnone : byteword_to_index_opt t = none := Option.isNone_iff_eq_none.mp hp
  refine ⟨t, ?_, htmem, htnone⟩
  unfold decode_words
  rw [hfind]

theorem decode_words_resolved (input : List Char) (ws : List (List Char))
    (h : ∀ t ∈ ws, (byteword_to_index_opt t).isSome) :
    decode_words input ws =
      letI bytes := ws.map (fun w => (byteword_to_index_opt w).getD 0)
      if ws.length < 5 then .error (.tooShort input)
      else if bytes.drop (ws.length - 4) = byteword_checksum (bytes.take (ws.length - 4))
      then .ok (bytes.take (ws.length - 4))
      else .error (.checksumInvalid input) := by
  have hfind : ws.find? (fun w => (byteword_to_index_opt w).isNone) = none := by
    rw [List.find?_eq_none]
    intro t ht
    show ¬(byteword_to_index_opt t).isNone = true
    rcases Option.isSome_iff_exists.mp (h t ht) with ⟨v, hv⟩
    rw [hv]
    simp
  unfold decode_words
  rw [hfind]
  simp only [List.length_map]

theorem tokenResolve_true_none_iff (t : List Char) :
    tokenResolve true t = none ↔ minimal_to_byteword_opt t = none := by
  unfold tokenResolve
  rw [if_pos rfl]
  constructor
  · intro h
    cases hm : minimal_to_byteword_opt t with
    | none => rfl
    | some w =>
      rcases minimal_to_byteword_opt_some t w hm with ⟨j, hj, rfl, _⟩
      rw [hm] at h
      have h2 : byteword_to_index_opt (index_to_byteword j) = none := h
      rw [byteword_to_index_opt_roundtrip j hj] at h2
      cases h2
  · intro h
    rw [h]
    rfl

/-- Bridging `byteword_string_to_bytes` in minimal mode to `decode_words` when
every chunk resolves. -/
theorem minimal_collect_ok (input : List Char)
    (h : ∀ t ∈ chunks2 input, (minimal_to_byteword_opt t).isSome) :
    byteword_minimal_string_to_byteword input =
      .ok ((chunks2 input).map (fun ch => (minimal_to_byteword_opt ch).getD [])) := by
  unfold byteword_minimal_string_to_byteword
  apply collectExcept_ok_of_forall
  intro ch hch
  rcases Option.isSome_iff_exists.mp (h ch hch) with ⟨w, hw⟩
  rw [hw]
  rfl

/-- C5. `byteword_string_to_bytes` fails exactly when some token does not
resolve (an unknown-word error naming an offending token), or fewer than 5
elements decode (a too-short error), or the last 4 decoded bytes differ from
the CRC-32 of the preceding bytes (a checksum-invalid error); otherwise it
returns the decoded bytes with the 4 checksum bytes stripped. -/
theorem byteword_string_to_bytes_characterization (input : List Char) (m : Bool) :
    ((∃ t ∈ tokenize input m, tokenResolve m t = none) →
       ∃ t, byteword_string_to_bytes input m = .error (.unknownWord t) ∧
         t ∈ tokenize input m ∧ tokenResolve m t = none) ∧
    ((∀ t ∈ tokenize input m, (tokenResolve m t).isSome) →
       ((tokenize input m).length < 5 →
          byteword_string_to_bytes input m = .error (.tooShort input)) ∧
       (5 ≤ (tokenize input m).length →
          ((decodedBytes input m).drop ((tokenize input m).length - 4) =
              byteword_checksum ((decodedBytes input m).take ((tokenize input m).length - 4)) →
            byteword_string_to_bytes input m =
              .ok ((decodedBytes input m).take ((tokenize input m).length - 4))) ∧
          ((decodedBytes input m).drop ((tokenize input m).length - 4) ≠
              byteword_checksum ((decodedBytes input m).take ((tokenize input m).length - 4)) →
            byteword_string_to_bytes input m = .error (.checksumInvalid input)))) := by
  cases m with
  | false =>
    have hdef : byteword_string_to_bytes input false =
        decode_words input (splitOnChar ' ' input) := by
      unfold byteword_string_to_bytes
      rw [if_neg Bool.false_ne_true]
    have htok : tokenize input false = splitOnChar ' ' input := by
      unfold tokenize; rw [if_neg Bool.false_ne_true]
    have hres : ∀ t, tokenResolve false t = byteword_to_index_opt t := by
      intro t; unfold tokenResolve; rw [if_neg Bool.false_ne_true]
    have hbytes : decodedBytes input false =
        (splitOnChar ' ' input).map (fun w => (byteword_to_index_opt w).getD 0) := by
      unfold decodedBytes
      rw [htok]
      exact List.map_congr_left (fun t _ => by rw [hres])
    constructor
    · intro hex
      rw [htok] at hex
      simp only [hres] at hex
      rcases decode_words_unknown input (splitOnChar ' ' input) hex with ⟨t, heq, hmem, hnone⟩
      exact ⟨t, by rw [hdef]; exact heq, by rw [htok]; exact hmem, by rw [hres]; exact hnone⟩
    · intro hall
      rw [htok] at hall
      simp only [hres] at hall
      have hrw := decode_words_resolved input (splitOnChar ' ' input) hall
      rw [htok, hbytes, hdef, hrw]
      refine ⟨fun hlt => by rw [if_pos hlt], fun hge => ⟨fun hck => ?_, fun hck => ?_⟩⟩
      · rw [if_neg (by omega), if_pos hck]
      · rw [if_neg (by omega), if_neg hck]
  | true =>
    have htok : tokenize input true = chunks2 input := by
      unfold tokenize; rw [if_pos rfl]
    constructor
    · intro hex
      rw [htok] at hex
      rcases hex with ⟨t, htmem, htnone⟩
      have htnone' : minimal_to_byteword_opt t = none :=
        (tokenResolve_true_none_iff t).mp htnone
      have hbad : ∃ x ∈ chunks2 input, ∃ e,
          (match minimal_to_byteword_opt x with
            | some w => (Except.ok w : Except BWError (List Char))
            | none => .error (.unknownWord x)) = .error e :=
        ⟨t, htmem, .unknownWord t, by rw [htnone']⟩
      rcases collectExcept_error_of_exists _ (chunks2 input) hbad with
        ⟨t', ht'mem, e', he', hcoll⟩
      have ht'none : minimal_to_byteword_opt t' = none := by
        cases hm : minimal_to_byteword_opt t' with
        | none => rfl
        | some w => rw [hm] at he'; cases he'
      have he'eq : e' = .unknownWord t' := by
        rw [ht'none] at he'
        cases he'
        rfl
      refine ⟨t', ?_, by rw [htok]; exact ht'mem,
        (tokenResolve_true_none_iff t').mpr ht'none⟩
      unfold byteword_string_to_bytes
      rw [if_pos rfl]
      unfold byteword_minimal_string_to_byteword
      rw [hcoll, he'eq]
    · intro hall
      rw [htok] at hall
      have hall' : ∀ t ∈ chunks2 input, (minimal_to_byteword_opt t).isSome := by
        intro t ht
        by_contra hn
        have : minimal_to_byteword_opt t = none := by
          cases hm : minimal_to_byteword_opt t with
          | none => rfl
          | some w => rw [hm] at hn; simp at hn
        have := (tokenResolve_true_none_iff t).mpr this
        have hs := hall t ht
        rw [this] at hs
        cases hs
      set ws := (chunks2 input).map (fun ch => (minimal_to_byteword_opt ch).getD [])
        with hws_def
      have hwords : ∀ w ∈ ws, (byteword_to_index_opt w).isSome := by
        intro w hw
        rcases List.mem_map.mp hw with ⟨ch, hch, rfl⟩
        rcases Option.isSome_iff_exists.mp (hall' ch hch) with ⟨v, hv⟩
        rcases minimal_to_byteword_opt_some ch v hv with ⟨j, hj, rfl, _⟩
        rw [hv]
        show (byteword_to_index_opt ((some (index_to_byteword j)).getD [])).isSome
        rw [show (some (index_to_byteword j)).getD [] = index_to_byteword j from rfl,
          byteword_to_index_opt_roundtrip j hj]
        rfl
      have hdef : byteword_string_to_bytes input true = decode_words input ws := by
        unfold byteword_string_to_bytes
        rw [if_pos rfl, minimal_collect_ok input hall']
      have hlen : ws.length = (chunks2 input).length := by
        rw [hws_def, List.length_map]
      have hbytes : ws.map (fun w => (byteword_to_index_opt w).getD 0) =
          decodedBytes input true := by
        rw [hws_def, List.map_map]
        unfold decodedBytes
        rw [htok]
        apply List.map_congr_left
        intro ch hch
        rcases Option.isSome_iff_exists.mp (hall' ch hch) with ⟨v, hv⟩
        show (byteword_to_index_opt ((minimal_to_byteword_opt ch).getD [])).getD 0 =
          (tokenResolve true ch).getD 0
        unfold tokenResolve
        rw [if_pos rfl, hv]
        rfl
      have hrw := decode_words_resolved input ws hwords
      rw [hdef, hrw]
      simp only [hbytes, hlen, ← htok]
      refine ⟨fun hlt => by rw [if_pos hlt], fun hge => ⟨fun hck => ?_, fun hck => ?_⟩⟩
      · rw [if_neg (by omega), if_pos hck]
      · rw [if_neg (by omega), if_neg hck]

/-! ## Odd-length minimal inputs (trailing one-character chunk) -/

/-- A one-character chunk matches no minimal form: every minimal form has two
characters. -/
theorem minimal_lookup_singleton (c : Char) : minimal_to_byteword_opt [c] = none := by
  unfold minimal_to_byteword_opt
  have hfind : (List.range 256).find?
      (fun i => byteword_to_minimal_string (index_to_byteword i) == [c]) = none := by
    rw [List.find?_eq_none]
    intro i _
    show ¬(byteword_to_minimal_string (index_to_byteword i) == [c]) = true
    simp [byteword_to_minimal_string]
  rw [hfind]
  rfl

/-- An odd-length character list chunks into two-character chunks followed by a
final singleton chunk. -/
theorem chunks2_odd : ∀ (input : List Char), input.length % 2 = 1 →
    ∃ ls c, chunks2 input = ls ++ [[c]] ∧ ∀ l ∈ ls, l.length = 2 := by
  intro input
  induction input using chunks2.induct with
  | case1 => intro h; simp at h
  | case2 c => intro _; exact ⟨[], c, rfl, by simp⟩
  | case3 c1 c2 rest ih =>
    intro h
    have hrest : rest.length % 2 = 1 := by
      simp only [List.length_cons] at h
      omega
    rcases ih hrest with ⟨ls, c, hch, hls⟩
    refine ⟨[c1, c2] :: ls, c, ?_, ?_⟩
    · show [c1, c2] :: chunks2 rest = ([c1, c2] :: ls) ++ [[c]]
      rw [hch]
      rfl
    · intro l hl
      rcases List.mem_cons.mp hl with h | h
      · subst h; rfl
      · exact hls l h

/-- In minimal mode, an unresolvable chunk makes the whole decode fail with an
unknown-word error naming an unresolvable chunk (the first one). -/
theorem minimal_decode_unknown (input : List Char)
    (hex : ∃ t ∈ chunks2 input, minimal_to_byteword_opt t = none) :
    ∃ t, byteword_string_to_bytes input true = .error (.unknownWord t) ∧
      t ∈ chunks2 input ∧ minimal_to_byteword_opt t = none := by
  rcases hex with ⟨t, htmem, htnone⟩
  have hbad : ∃ x ∈ chunks2 input, ∃ e,
      (match minimal_to_byteword_opt x with
        | some w => (Except.ok w : Except BWError (List Char))
        | none => .error (.unknownWord x)) = .error e :=
    ⟨t, htmem, .unknownWord t, by rw [htnone]⟩
  rcases collectExcept_error_of_exists _ (chunks2 input) hbad with
    ⟨t', ht'mem, e', he', hcoll⟩
  have ht'none : minimal_to_byteword_opt t' = none := by
    cases hm : minimal_to_byteword_opt t' with
    | none => rfl
    | some w => rw [hm] at he'; cases he'
  have he'eq : e' = .unknownWord t' := by
    rw [ht'none] at he'
    cases he'
    rfl
  refine ⟨t', ?_, ht'mem, ht'none⟩
  unfold byteword_string_to_bytes
  rw [if_pos rfl]
  unfold byteword_minimal_string_to_byteword
  rw [hcoll, he'eq]

set_option maxRecDepth 100000 in
/-- C10 (counterexample). On the odd-length minimal input `"xxa"` the
decoder's unknown-word error names the first unresolvable chunk `"xx"`, not
the trailing one-character chunk `"a"`. -/
theorem odd_minimal_trailing_chunk_cex :
    byteword_string_to_bytes ['x', 'x', 'a'] true = .error (.unknownWord ['x', 'x']) ∧
    chunks2 ['x', 'x', 'a'] = [['x', 'x'], ['a']] ∧
    (['x', 'x'] : List Char) ≠ ['a'] :=
  ⟨rfl, rfl, by decide⟩

/-- C10 (amended). For every minimal-form input of odd length, decoding
fails with an unknown-word error naming the first unresolvable chunk; when all
two-character chunks resolve, that is the trailing one-character chunk.  The
trailing character is never silently dropped and the call never panics. -/
theorem odd_minimal_decode_unknown_word (input : List Char)
    (hodd : input.length % 2 = 1) :
    ∃ t, byteword_string_to_bytes input true = .error (.unknownWord t) ∧
      t ∈ chunks2 input ∧ minimal_to_byteword_opt t = none ∧
      ((∀ t' ∈ chunks2 input, t'.length = 2 → (minimal_to_byteword_opt t').isSome) →
        t = (chunks2 input).getLastD [] ∧ t.length = 1) := by
  rcases chunks2_odd input hodd with ⟨ls, c, hch, hls⟩
  have hex : ∃ t ∈ chunks2 input, minimal_to_byteword_opt t = none := by
    refine ⟨[c], ?_, minimal_lookup_singleton c⟩
    rw [hch]
    exact List.mem_append_right ls (List.mem_singleton_self _)
  rcases minimal_decode_unknown input hex with ⟨t, herr, htmem, htnone⟩
  refine ⟨t, herr, htmem, htnone, ?_⟩
  intro hall
  have ht : t = [c] := by
    rw [hch] at htmem
    rcases List.mem_append.mp htmem with h | h
    · exfalso
      have hlen2 := hls t h
      have hsome := hall t (by rw [hch]; exact List.mem_append_left _ h) hlen2
      rw [htnone] at hsome
      cases hsome
    · simpa using h
  subst ht
  constructor
  · rw [hch]
    simp
  · rfl

/-! ## Bit-flip sensitivity of the full-form encoding

Key combinatorial fact about the word table: any two distinct table words
differ in at least two character positions, so changing one character of a
table word can never produce a table word. -/

/-- Number of positions where two equal-length lists differ (equal to 5, more
than any possible word distance, on a length mismatch). -/
def diffCount : List Char → List Char → Nat
  | [], [] => 0
  | a :: as, b :: bs => (if a = b then 0 else 1) + diffCount as bs
  | _, _ => 5

theorem diffCount_self : ∀ l : List Char, diffCount l l = 0 := by
  intro l
  induction l with
  | nil => rfl
  | cons a as ih => simp [diffCount, ih]

theorem diffCount_symm : ∀ l₁ l₂ : List Char, diffCount l₁ l₂ = diffCount l₂ l₁ := by
  intro l₁
  induction l₁ with
  | nil => intro l₂; cases l₂ <;> rfl
  | cons a as ih =>
    intro l₂
    cases l₂ with
    | nil => rfl
    | cons b bs =>
      simp only [diffCount, ih bs]
      by_cases hab : a = b
      · simp [hab]
      · rw [if_neg hab, if_neg (fun h => hab h.symm)]

theorem diffCount_set : ∀ (w : List Char) (p : Nat) (c : Char), p < w.length →
    c ≠ w.getD p ' ' → diffCount (w.set p c) w = 1 := by
  intro w
  induction w with
  | nil => intro p c hp _; simp at hp
  | cons a as ih =>
    intro p c hp hc
    cases p with
    | zero =>
      have hca : c ≠ a := by simpa using hc
      simp [diffCount, List.set, hca, diffCount_self]
    | succ p' =>
      have hp' : p' < as.length := by simpa using hp
      have hc' : c ≠ as.getD p' ' ' := by simpa using hc
      show diffCount (a :: as.set p' c) (a :: as) = 1
      simp [diffCount, ih p' c hp' hc']

set_option maxRecDepth 100000 in
set_option maxHeartbeats 2000000 in
theorem words_pairwise_dist :
    List.Pairwise (fun w v => 2 ≤ diffCount w v)
      ((List.range 256).map index_to_byteword) := by decide

theorem words_dist (i j : Nat) (hi : i < 256) (hj : j < 256) (hij : i ≠ j) :
    2 ≤ diffCount (index_to_byteword i) (index_to_byteword j) := by
  have hlen : ((List.range 256).map index_to_byteword).length = 256 := by simp
  have hpw := List.pairwise_iff_get.mp words_pairwise_dist
  have hget : ∀ (n : Nat) (hn : n < ((List.range 256).map index_to_byteword).length),
      ((List.range 256).map index_to_byteword).get ⟨n, hn⟩ = index_to_byteword n := by
    intro n hn
    simp
  rcases Nat.lt_or_ge i j with hlt | hge
  · have h2 := hpw ⟨i, by omega⟩ ⟨j, by omega⟩ hlt
    rwa [hget i _, hget j _] at h2
  · have hlt : j < i := by omega
    have h2 := hpw ⟨j, by omega⟩ ⟨i, by omega⟩ hlt
    rw [hget j _, hget i _] at h2
    rwa [diffCount_symm]

theorem lookup_none_of_length_ne (t : List Char) (h : ¬ t.length = 4) :
    byteword_to_index_opt t = none := by
  cases hf : byteword_to_index_opt t with
  | none => rfl
  | some j =>
    rcases byteword_to_index_opt_some t j hf with ⟨hj, hw⟩
    exact absurd (hw ▸ word_length j hj) h

theorem set_word_not_in_table (i p : Nat) (hi : i < 256) (hp : p < 4) (c : Char)
    (hc : c ≠ (index_to_byteword i).getD p ' ') :
    byteword_to_index_opt ((index_to_byteword i).set p c) = none := by
  cases hf : byteword_to_index_opt ((index_to_byteword i).set p c) with
  | none => rfl
  | some j =>
    exfalso
    rcases byteword_to_index_opt_some _ j hf with ⟨hj, hw⟩
    have hd1 : diffCount ((index_to_byteword i).set p c) (index_to_byteword i) = 1 :=
      diffCount_set _ p c (by rw [word_length i hi]; exact hp) hc
    by_cases hij : j = i
    · rw [hij] at hw
      rw [← hw] at hd1
      rw [diffCount_self] at hd1
      cases hd1
    · have := words_dist j i hj hi hij
      rw [← hw] at hd1
      omega

/-! ### Decomposing `List.set` over appends -/

theorem set_append_of_lt {α : Type} (l₁ l₂ : List α) (p : Nat) (a : α)
    (h : p < l₁.length) : (l₁ ++ l₂).set p a = l₁.set p a ++ l₂ := by
  induction l₁ generalizing p with
  | nil => simp at h
  | cons x xs ih =>
    cases p with
    | zero => rfl
    | succ p' =>
      have hp' : p' < xs.length := by simpa using h
      show x :: (xs ++ l₂).set p' a = x :: (xs.set p' a ++ l₂)
      rw [ih p' hp']

theorem set_append_of_le {α : Type} (l₁ l₂ : List α) (p : Nat) (a : α)
    (h : l₁.length ≤ p) : (l₁ ++ l₂).set p a = l₁ ++ l₂.set (p - l₁.length) a := by
  induction l₁ generalizing p with
  | nil => simp
  | cons x xs ih =>
    cases p with
    | zero => simp at h
    | succ p' =>
      have hp' : xs.length ≤ p' := by simpa using h
      have hidx : p' + 1 - (x :: xs).length = p' - xs.length := by
        simp only [List.length_cons]
        omega
      rw [hidx]
      show x :: (xs ++ l₂).set p' a = x :: (xs ++ l₂.set (p' - xs.length) a)
      rw [ih p' hp']

theorem mem_set_subset {α : Type} (l : List α) (p : Nat) (a x : α)
    (hx : x ∈ l.set p a) : x = a ∨ x ∈ l := by
  induction l generalizing p with
  | nil => cases hx
  | cons y ys ih =>
    cases p with
    | zero =>
      rcases List.mem_cons.mp hx with h | h
      · exact Or.inl h
      · exact Or.inr (List.mem_cons_of_mem y h)
    | succ p' =>
      rcases List.mem_cons.mp hx with h | h
      · exact Or.inr (h ▸ List.mem_cons_self y ys)
      · rcases ih p' h with h | h
        · exact Or.inl h
        · exact Or.inr (List.mem_cons_of_mem y h)

theorem splitOnChar_append_no_sep (sep : Char) :
    ∀ (w s : List Char), sep ∉ w →
      splitOnChar sep (w ++ s) =
        (w ++ (splitOnChar sep s).headD []) :: (splitOnChar sep s).tail := by
  intro w
  induction w with
  | nil =>
    intro s _
    cases hs : splitOnChar sep s with
    | nil => exact absurd hs (splitOnChar_ne_nil sep s)
    | cons h t => rw [List.nil_append, hs]; rfl
  | cons x xs ih =>
    intro s hno
    have hx : ¬ x = sep := fun h => hno (h ▸ List.mem_cons_self x xs)
    have hxs : sep ∉ xs := fun h => hno (List.mem_cons_of_mem x h)
    show splitOnChar sep (x :: (xs ++ s)) = _
    simp only [splitOnChar, if_neg hx, ih s hxs]
    rfl

/-- Modifying any single character of a space-joined list of table words leaves
some token that resolves to no table word. -/
theorem joinWords_set_invalid_token :
    ∀ (ws : List (List Char)), ws ≠ [] →
      (∀ w ∈ ws, ∃ i, i < 256 ∧ w = index_to_byteword i) →
      ∀ (p : Nat) (c : Char), p < (joinWords ws).length →
        c ≠ (joinWords ws).getD p ' ' →
        ∃ t ∈ splitOnChar ' ' ((joinWords ws).set p c),
          byteword_to_index_opt t = none := by
  intro ws
  induction ws with
  | nil => intro h; exact absurd rfl h
  | cons w rest ih =>
    intro _ htab p c hp hc
    rcases htab w (List.mem_cons_self w rest) with ⟨i, hi, rfl⟩
    have hlen4 : (index_to_byteword i).length = 4 := word_length i hi
    have hnos : ' ' ∉ index_to_byteword i := word_no_space i hi
    cases rest with
    | nil =>
      have hjw : joinWords [index_to_byteword i] = index_to_byteword i := rfl
      rw [hjw] at hp hc ⊢
      have hp4 : p < 4 := by rwa [hlen4] at hp
      by_cases hcsp : c = ' '
      · subst hcsp
        have hdec : (index_to_byteword i).set p ' ' =
            (index_to_byteword i).take p ++ ' ' :: (index_to_byteword i).drop (p + 1) :=
          List.set_eq_take_cons_drop ' ' (by omega)
        have hnot : ' ' ∉ (index_to_byteword i).take p :=
          fun h => hnos (List.take_subset p _ h)
        rw [hdec, splitOnChar_word_sep ' ' _ _ hnot]
        refine ⟨(index_to_byteword i).take p, List.mem_cons_self _ _, ?_⟩
        apply lookup_none_of_length_ne
        rw [List.length_take, hlen4]
        omega
      · have hnos' : ' ' ∉ (index_to_byteword i).set p c := by
          intro h
          rcases mem_set_subset _ p c ' ' h with h | h
          · exact hcsp h.symm
          · exact hnos h
        rw [splitOnChar_no_sep ' ' _ hnos']
        exact ⟨(index_to_byteword i).set p c, List.mem_cons_self _ _,
          set_word_not_in_table i p hi hp4 c hc⟩
    | cons w2 rest' =>
      have hjw : joinWords (index_to_byteword i :: w2 :: rest') =
          index_to_byteword i ++ ' ' :: joinWords (w2 :: rest') := rfl
      set jr := joinWords (w2 :: rest') with hjr_def
      rw [hjw] at hp hc ⊢
      have hlen : (index_to_byteword i ++ ' ' :: jr).length = 5 + jr.length := by
        rw [List.length_append, hlen4]
        simp
        omega
      rcases Nat.lt_or_ge p 4 with hp4 | hp4
      · have hmod : (index_to_byteword i ++ ' ' :: jr).set p c =
            (index_to_byteword i).set p c ++ ' ' :: jr :=
          set_append_of_lt _ _ p c (by omega)
        have hc' : c ≠ (index_to_byteword i).getD p ' ' := by
          rwa [List.getD_append _ _ _ _ (by omega)] at hc
        by_cases hcsp : c = ' '
        · subst hcsp
          have hdec : (index_to_byteword i).set p ' ' =
              (index_to_byteword i).take p ++ ' ' :: (index_to_byteword i).drop (p + 1) :=
            List.set_eq_take_cons_drop ' ' (by omega)
          have hnot : ' ' ∉ (index_to_byteword i).take p :=
            fun h => hnos (List.take_subset p _ h)
          rw [hmod, hdec, List.append_assoc, List.cons_append,
            splitOnChar_word_sep ' ' _ _ hnot]
          refine ⟨(index_to_byteword i).take p, List.mem_cons_self _ _, ?_⟩
          apply lookup_none_of_length_ne
          rw [List.length_take, hlen4]
          omega
        · have hnos' : ' ' ∉ (index_to_byteword i).set p c := by
            intro h
            rcases mem_set_subset _ p c ' ' h with h | h
            · exact hcsp h.symm
            · exact hnos h
          rw [hmod, splitOnChar_word_sep ' ' _ _ hnos']
          exact ⟨(index_to_byteword i).set p c, List.mem_cons_self _ _,
            set_word_not_in_table i p hi hp4 c hc'⟩
      · rcases Nat.lt_or_ge p 5 with hp5 | hp5
        · have hp4' : p = 4 := by omega
          subst hp4'
          have horig : (index_to_byteword i ++ ' ' :: jr).getD 4 ' ' = ' ' := by
            rw [List.getD_append_right _ _ _ _ (by omega), hlen4]
            rfl
          rw [horig] at hc
          have hmod : (index_to_byteword i ++ ' ' :: jr).set 4 c =
              index_to_byteword i ++ c :: jr := by
            rw [set_append_of_le _ _ 4 c (by omega), hlen4]
            rfl
          rw [hmod, splitOnChar_append_no_sep ' ' _ _ hnos]
          cases hjr : splitOnChar ' ' jr with
          | nil => exact absurd hjr (splitOnChar_ne_nil ' ' jr)
          | cons h0 t0 =>
            have hsplit : splitOnChar ' ' (c :: jr) = (c :: h0) :: t0 := by
              simp only [splitOnChar, if_neg hc, hjr]
            rw [hsplit]
            refine ⟨index_to_byteword i ++ (c :: h0), List.mem_cons_self _ _, ?_⟩
            apply lookup_none_of_length_ne
            rw [List.length_append, hlen4]
            simp
        · have hmod : (index_to_byteword i ++ ' ' :: jr).set p c =
              index_to_byteword i ++ ' ' :: jr.set (p - 5) c := by
            rw [set_append_of_le _ _ p c (by omega), hlen4]
            have : p - 4 = (p - 5) + 1 := by omega
            rw [this]
            rfl
          have hcj : c ≠ jr.getD (p - 5) ' ' := by
            rw [List.getD_append_right _ _ _ _ (by omega), hlen4] at hc
            have : p - 4 = (p - 5) + 1 := by omega
            rw [this] at hc
            simpa using hc
          have hpj : p - 5 < jr.length := by omega
          rw [hmod, splitOnChar_word_sep ' ' _ _ hnos]
          rcases ih (by simp) (fun v hv => htab v (List.mem_cons_of_mem _ hv))
            (p - 5) c hpj hcj with ⟨t, htmem, htinv⟩
          exact ⟨t, List.mem_cons_of_mem _ htmem, htinv⟩

/-- C7. For every nonempty byte sequence `b` (entries below 256), replacing
any single character of the full-form encoding by the character whose code
differs in exactly one bit makes decoding fail — with an unknown-word or
checksum error; it never succeeds on the tampered string. -/
theorem encode_bitflip_decode_fails (b : List Nat) (hne : b ≠ [])
    (hb : ∀ x ∈ b, x < 256) (p k : Nat) (c : Char)
    (hp : p < (byteword_string b false).length)
    (hflip : c.toNat = ((byteword_string b false).getD p ' ').toNat ^^^ (1 <<< k)) :
    (∃ t, byteword_string_to_bytes ((byteword_string b false).set p c) false =
        .error (.unknownWord t)) ∨
    (∃ s, byteword_string_to_bytes ((byteword_string b false).set p c) false =
        .error (.checksumInvalid s)) := by
  left
  set data := b ++ byteword_checksum b with hdata_def
  have hd : ∀ x ∈ data, x < 256 := by
    intro x hx
    rcases List.mem_append.mp hx with h | h
    · exact hb x h
    · exact byteword_checksum_lt b x h
  have henc : byteword_string b false = joinWords (data.map index_to_byteword) := by
    simp [byteword_string, byteword_string_no_checksum, hdata_def]
  have hcne : c ≠ (byteword_string b false).getD p ' ' := by
    intro h
    have h1 := congrArg Char.toNat h
    rw [h1] at hflip
    have h2 : (1 <<< k) = 0 := by
      have h3 := congrArg
        (fun n => ((byteword_string b false).getD p ' ').toNat ^^^ n) hflip.symm
      simp only at h3
      rwa [← Nat.xor_assoc, Nat.xor_self, Nat.zero_xor] at h3
    rw [Nat.shiftLeft_eq, Nat.one_mul] at h2
    exact absurd h2 (Nat.pos_iff_ne_zero.mp (Nat.two_pow_pos k))
  have hwsne : data.map index_to_byteword ≠ [] := by
    simp only [ne_eq, List.map_eq_nil_iff, hdata_def]
    intro h
    rcases List.append_eq_nil.mp h with ⟨h1, _⟩
    exact hne h1
  have htab : ∀ w ∈ data.map index_to_byteword, ∃ i, i < 256 ∧ w = index_to_byteword i := by
    intro w hw
    rcases List.mem_map.mp hw with ⟨x, hx, rfl⟩
    exact ⟨x, hd x hx, rfl⟩
  rw [henc] at hp hcne ⊢
  rcases joinWords_set_invalid_token (data.map index_to_byteword) hwsne htab p c hp hcne
    with ⟨t, htmem, htinv⟩
  have hdef : byteword_string_to_bytes ((joinWords (data.map index_to_byteword)).set p c)
      false = decode_words ((joinWords (data.map index_to_byteword)).set p c)
      (splitOnChar ' ' ((joinWords (data.map index_to_byteword)).set p c)) := by
    unfold byteword_string_to_bytes
    rw [if_neg Bool.false_ne_true]
  rcases decode_words_unknown _ _ ⟨t, htmem, htinv⟩ with ⟨t', heq, _, _⟩
  exact ⟨t', by rw [hdef]; exact heq⟩

/-! ## Share metadata parsing (`src/sskr_shares.rs`) -/

/-- Modelled from the spec: `sskr::METADATA_SIZE_BYTES`, a constant of the
external sskr engine crate; spec §3 fixes the bit-packed header at 5 bytes
("First 5 bytes, big-endian bit-packed"), and the code reads `source[0..=4]`. -/
def METADATA_SIZE_BYTES : Nat := 5

/-- The `[usize; 5]` metadata array returned by `share_metadata`, with the
source's element order `[group_index, group_threshold, group_count,
member_index, member_threshold]` as named fields. -/
structure ShareMeta where
  group_index : Nat
  group_threshold : Nat
  group_count : Nat
  member_index : Nat
  member_threshold : Nat
deriving DecidableEq

/-- Failure modes of `share_metadata`; each constructor carries the
re-rendered byteword string interpolated into the `anyhow!` message. -/
inductive SMError : Type
  | tooShort (rendered : List Char)
  | invalidGroupThreshold (rendered : List Char)
  | invalidReservedBits (rendered : List Char)
deriving DecidableEq

/-- Rust `pub fn share_metadata(source: &[u8], minimal: &bool) -> Result<(u16, [usize; 5]), Error>`.
The identifier `((source[0] as u16) << 8) | source[1] as u16` and the nibble
extractions are written with the source's shift/mask operators. -/
def share_metadata (source : List Nat) (minimal : Bool) :
    Except SMError (Nat × ShareMeta) :=
  if source.length < METADATA_SIZE_BYTES then
    .error (.tooShort (byteword_string_no_checksum source minimal))
  else
    let group_threshold := (source.getD 2 0 >>> 4) + 1
    let group_count := (source.getD 2 0 &&& 0xf) + 1
    if group_threshold > group_count then
      .error (.invalidGroupThreshold (byteword_string_no_checksum source minimal))
    else
      let identifier := (source.getD 0 0 <<< 8) ||| source.getD 1 0
      let group_index := source.getD 3 0 >>> 4
      let member_threshold := (source.getD 3 0 &&& 0xf) + 1
      let reserved := source.getD 4 0 >>> 4
      if reserved ≠ 0 then
        .error (.invalidReservedBits (byteword_string_no_checksum source minimal))
      else
        let member_index := source.getD 4 0 &&& 0xf
        .ok (identifier,
          ⟨group_index, group_threshold, group_count, member_index, member_threshold⟩)

theorem shiftRight4_eq (n : Nat) : n >>> 4 = n / 16 := by
  rw [Nat.shiftRight_eq_div_pow]

theorem and15_eq (n : Nat) : n &&& 0xf = n % 16 := by
  have h := Nat.and_pow_two_sub_one_eq_mod n 4
  norm_num at h
  exact h

theorem shiftLeft8_or_eq (a b : Nat) (hb : b < 256) : (a <<< 8) ||| b = 256 * a + b := by
  have hb' : b < 2 ^ 8 := by simpa using hb
  rw [Nat.shiftLeft_eq, Nat.mul_comm, ← Nat.mul_add_lt_is_or hb' a]

theorem getD_lt_256 (source : List Nat) (hb : ∀ x ∈ source, x < 256) (n : Nat) :
    source.getD n 0 < 256 := by
  cases hx : source.get? n with
  | none => rw [List.getD_eq_getD_get?, hx]; norm_num
  | some v =>
    rw [List.getD_eq_getD_get?, hx]
    exact hb v (List.get?_mem hx)

/-- C4. For payloads of at least the 5-byte header whose group-threshold
nibble does not exceed the group-count nibble and whose reserved nibble is 0,
`share_metadata` returns the big-endian 16-bit identifier from bytes 0-1,
`group_threshold` = high nibble of byte 2 plus 1, `group_count` = low nibble of
byte 2 plus 1, `group_index` = high nibble of byte 3, `member_threshold` = low
nibble of byte 3 plus 1 and `member_index` = low nibble of byte 4; it fails
with "too short" on shorter payloads, "invalid group threshold" when the
threshold nibble exceeds the count nibble, and "invalid reserved bits" when
the reserved nibble is nonzero. -/
theorem share_metadata_characterization (source : List Nat) (minimal : Bool)
    (hb : ∀ x ∈ source, x < 256) :
    (source.length < 5 →
      share_metadata source minimal =
        .error (.tooShort (byteword_string_no_checksum source minimal))) ∧
    (5 ≤ source.length →
      (source.getD 2 0 % 16 < source.getD 2 0 / 16 →
        share_metadata source minimal =
          .error (.invalidGroupThreshold (byteword_string_no_checksum source minimal))) ∧
      (source.getD 2 0 / 16 ≤ source.getD 2 0 % 16 →
        (source.getD 4 0 / 16 ≠ 0 →
          share_metadata source minimal =
            .error (.invalidReservedBits (byteword_string_no_checksum source minimal))) ∧
        (source.getD 4 0 / 16 = 0 →
          share_metadata source minimal =
            .ok (256 * source.getD 0 0 + source.getD 1 0,
              ⟨source.getD 3 0 / 16, source.getD 2 0 / 16 + 1,
               source.getD 2 0 % 16 + 1, source.getD 4 0 % 16,
               source.getD 3 0 % 16 + 1⟩)))) := by
  have hmeta : METADATA_SIZE_BYTES = 5 := rfl
  refine ⟨fun h => ?_, fun h5 => ⟨fun hgt => ?_, fun hle => ⟨fun hres => ?_, fun hres => ?_⟩⟩⟩
  · unfold share_metadata
    rw [if_pos (by omega)]
  · unfold share_metadata
    rw [if_neg (by omega), shiftRight4_eq, and15_eq, if_pos (by omega)]
  · unfold share_metadata
    rw [if_neg (by omega), shiftRight4_eq, and15_eq, if_neg (by omega),
      shiftRight4_eq (source.getD 4 0)]
    rw [if_pos hres]
  · unfold share_metadata
    rw [if_neg (by omega), shiftRight4_eq, and15_eq, if_neg (by omega),
      shiftRight4_eq (source.getD 4 0)]
    rw [if_neg (by simpa using hres)]
    rw [shiftLeft8_or_eq _ _ (getD_lt_256 source hb 1),
      shiftRight4_eq (source.getD 3 0), and15_eq (source.getD 3 0),
      and15_eq (source.getD 4 0)]

/-- Witness for C4: a concrete well-formed 5-byte header. -/
theorem share_metadata_witness :
    share_metadata [18, 52, 18, 35, 5] false =
      .ok (256 * 18 + 52, ⟨35 / 16, 18 / 16 + 1, 18 % 16 + 1, 5 % 16, 35 % 16 + 1⟩) :=
  (((share_metadata_characterization [18, 52, 18, 35, 5] false
    (by decide)).2 (by decide)).2 (by decide)).2 (by decide)

/-! ## Group-spec parsing and split (`src/split.rs`) -/

def digitVal (c : Char) : Nat := c.toNat - '0'.toNat

/-- Rust `str::parse::<usize>` on a digit string (overflow is not modelled: every
value the split path accepts is at most 16). -/
def natOfDigits (l : List Char) : Nat := l.foldl (fun a c => a * 10 + digitVal c) 0

/-- The anchored token pattern `^\d+of\d+$`: leading digits, the literal
`of`, trailing digits, nothing else.  The anchored `SPEC_REGEX`
`^((\d+of\d+),)*\d+of\d+$` matches a spec string exactly when every
comma-separated part matches this pattern (tokens cannot contain commas), and
on such a part the unanchored `SPEC_GROUP_REGEX` search captures exactly the
leading digits as `m` and the trailing digits as `n` (the decomposition is
unique: a token matching `\d+of\d+` contains a single `of`). -/
def parseMofN (part : List Char) : Option (Nat × Nat) :=
  let ds1 := part.takeWhile Char.isDigit
  let rest := part.dropWhile Char.isDigit
  if ds1.isEmpty then none
  else
    match rest with
    | 'o' :: 'f' :: ds2 =>
      if ds2.isEmpty then none
      else if ds2.all Char.isDigit then some (natOfDigits ds1, natOfDigits ds2)
      else none
    | _ => none

/-- Modelled from the spec: `sskr::GroupSpec::new(m, n)` of the external sskr
engine crate; spec §6 pins the valid range to `1 ≤ M ≤ N ≤ 16` (at most 16
members per group, 4-bit header fields). -/
def GroupSpec.new (m n : Nat) : Except String (Nat × Nat) :=
  if 1 ≤ m ∧ m ≤ n ∧ n ≤ 16 then .ok (m, n) else .error "invalid group parameters"

/-- Modelled from the spec: `sskr::Spec::new(group_threshold, groups)` of the
external sskr engine crate; spec §4.3/§6 allow at most 16 groups and a
satisfiable group threshold. -/
def Spec.new (gt : Nat) (gs : List (Nat × Nat)) :
    Except String (Nat × List (Nat × Nat)) :=
  if 1 ≤ gt ∧ gt ≤ gs.length ∧ gs.length ≤ 16 then .ok (gt, gs)
  else .error "invalid spec parameters"

/-- Failure modes of `parse_spec`; constructors carry the offending part or the
engine's message, as interpolated into the `anyhow!`/`bail!` messages. -/
inductive SpecError : Type
  | invalidSpec
  | noCapture (part : List Char)
  | mGreaterN (part : List Char)
  | oneOfN (part : List Char)
  | groupSpecFailed (part : List Char) (msg : String)
  | specFailed (msg : String)
deriving DecidableEq

/-- Rust `fn parse_spec(spec: &String, group_threshold: usize) -> Result<Spec, Error>`:
the anchored whole-spec regex check, then per-part capture, `m > n` and
`m == 1 && n > 1` rejections, `GroupSpec::new`, finally `Spec::new`. -/
def parse_spec (spec : List Char) (group_threshold : Nat) :
    Except SpecError (Nat × List (Nat × Nat)) :=
  if ¬ (splitOnChar ',' spec).all (fun p => (parseMofN p).isSome) then
    .error .invalidSpec
  else
    match collectExcept (fun part =>
      match parseMofN part with
      | none => .error (.noCapture part)
      | some (m, n) =>
        if m > n then .error (.mGreaterN part)
        else if m = 1 ∧ n > 1 then .error (.oneOfN part)
        else
          match GroupSpec.new m n with
          | .ok g => .ok g
          | .error msg => .error (.groupSpecFailed part msg)) (splitOnChar ',' spec) with
    | .error e => .error e
    | .ok gs =>
      match Spec.new group_threshold gs with
      | .ok s => .ok s
      | .error msg => .error (.specFailed msg)

/-- Rust `fn to_bytewords(groups: &Vec<Vec<Vec<u8>>>) -> Vec<Vec<String>>`: wrap each
share in the CBOR envelope (tag 309, an external dcbor operation taken as a
function parameter) and Bytewords-encode it. -/
def to_bytewords (wrapCbor : List Nat → List Nat)
    (groups : List (List (List Nat))) (minimal : Bool) : List (List (List Char)) :=
  groups.map (fun shares => shares.map (fun share =>
    byteword_string (wrapCbor share) minimal))

/-- Failure modes of `split`: a spec rejection or a failure of one of the
external collaborators (bip39 phrase parsing, `Secret::new`, `sskr_generate`). -/
inductive SplitError : Type
  | spec (e : SpecError)
  | external (msg : String)
deriving DecidableEq

/-- Rust `pub fn split(spec, group_threshold, phrase, minimal)`.  The external
collaborators are opaque function parameters: `fromPhrase` models
`Mnemonic::from_phrase` plus `.entropy()`, `secretNew` models `Secret::new`,
`sskrGenerate` models `sskr_generate`, `wrapCbor` models the CBOR tagging. -/
def split {M : Type} (fromPhrase : List Char → Except String (M × List Nat))
    (secretNew : List Nat → Except String (List Nat))
    (sskrGenerate : Nat × List (Nat × Nat) → List Nat →
      Except String (List (List (List Nat))))
    (wrapCbor : List Nat → List Nat)
    (spec : List Char) (group_threshold : Nat) (phrase : List Char)
    (minimal : Bool) : Except SplitError (M × List (List (List Char))) :=
  match parse_spec spec group_threshold with
  | .error e => .error (.spec e)
  | .ok sskr_spec =>
    match fromPhrase phrase with
    | .error msg => .error (.external msg)
    | .ok (mnemonic, entropy) =>
      match secretNew entropy with
      | .error msg => .error (.external msg)
      | .ok secret =>
        match sskrGenerate sskr_spec secret with
        | .error msg => .error (.external msg)
        | .ok groups => .ok (mnemonic, to_bytewords wrapCbor groups minimal)

theorem collectExcept_ok_mem {α β ε : Type} (f : α → Except ε β) :
    ∀ (l : List α) (ys : List β), collectExcept f l = .ok ys →
      ∀ x ∈ l, ∃ y, f x = .ok y := by
  intro l
  induction l with
  | nil => intro ys _ x hx; cases hx
  | cons a rest ih =>
    intro ys h x hx
    simp only [collectExcept] at h
    cases ha : f a with
    | error e => rw [ha] at h; cases h
    | ok y =>
      rw [ha] at h
      cases hr : collectExcept f rest with
      | error e => rw [hr] at h; cases h
      | ok ys' =>
        rcases List.mem_cons.mp hx with rfl | hx'
        · exact ⟨y, ha⟩
        · exact ih ys' hr x hx'

/-- Inverting a successful `parse_spec`: every part matched the pattern with
`1 ≤ m ≤ n ≤ 16` and `m = 1 → n = 1`, and there are at most 16 parts. -/
theorem parse_spec_ok_inv (spec : List Char) (gt : Nat) (s : Nat × List (Nat × Nat))
    (h : parse_spec spec gt = .ok s) :
    (∀ p ∈ splitOnChar ',' spec, ∃ m n, parseMofN p = some (m, n) ∧
      1 ≤ m ∧ m ≤ n ∧ (m = 1 → n = 1) ∧ n ≤ 16) ∧
    (splitOnChar ',' spec).length ≤ 16 := by
  unfold parse_spec at h
  by_cases hall : (splitOnChar ',' spec).all (fun p => (parseMofN p).isSome) = true
  · rw [if_neg (not_not_intro hall)] at h
    cases hcoll : collectExcept (fun part =>
        match parseMofN part with
        | none => .error (.noCapture part)
        | some (m, n) =>
          if m > n then .error (.mGreaterN part)
          else if m = 1 ∧ n > 1 then .error (.oneOfN part)
          else
            match GroupSpec.new m n with
            | .ok g => .ok g
            | .error msg => .error (SpecError.groupSpecFailed part msg))
        (splitOnChar ',' spec) with
    | error e => rw [hcoll] at h; cases h
    | ok gs =>
      rw [hcoll] at h
      have h' : (match Spec.new gt gs with
          | .ok s' => (Except.ok s' : Except SpecError (Nat × List (Nat × Nat)))
          | .error msg => .error (.specFailed msg)) = .ok s := h
      have hlen : gs.length = (splitOnChar ',' spec).length :=
        collectExcept_length _ _ _ hcoll
      have hspecnew : ∃ s', Spec.new gt gs = .ok s' := by
        cases hs : Spec.new gt gs with
        | error m => rw [hs] at h'; cases h'
        | ok s' => exact ⟨s', rfl⟩
      have hlength16 : (splitOnChar ',' spec).length ≤ 16 := by
        rcases hspecnew with ⟨s', hs⟩
        unfold Spec.new at hs
        by_cases hcond : 1 ≤ gt ∧ gt ≤ gs.length ∧ gs.length ≤ 16
        · omega
        · rw [if_neg hcond] at hs; cases hs
      refine ⟨?_, hlength16⟩
      intro p hp
      rcases collectExcept_ok_mem _ _ _ hcoll p hp with ⟨g, hg⟩
      cases hmn : parseMofN p with
      | none => rw [hmn] at hg; cases hg
      | some mn =>
        obtain ⟨m, n⟩ := mn
        rw [hmn] at hg
        have hg' : (if m > n then Except.error (SpecError.mGreaterN p)
            else if m = 1 ∧ n > 1 then Except.error (SpecError.oneOfN p)
            else match GroupSpec.new m n with
              | .ok g' => Except.ok g'
              | .error msg => Except.error (SpecError.groupSpecFailed p msg)) =
            Except.ok g := hg
        by_cases h1 : m > n
        · rw [if_pos h1] at hg'; cases hg'
        · rw [if_neg h1] at hg'
          by_cases h2 : m = 1 ∧ n > 1
          · rw [if_pos h2] at hg'; cases hg'
          · rw [if_neg h2] at hg'
            have hgs : ∃ g', GroupSpec.new m n = .ok g' := by
              cases hgn : GroupSpec.new m n with
              | error msg => rw [hgn] at hg'; cases hg'
              | ok g' => exact ⟨g', rfl⟩
            rcases hgs with ⟨g', hgn⟩
            unfold GroupSpec.new at hgn
            by_cases hcond : 1 ≤ m ∧ m ≤ n ∧ n ≤ 16
            · have h2' : m = 1 → ¬ n > 1 := fun hm hn => h2 ⟨hm, hn⟩
              exact ⟨m, n, rfl, hcond.1, hcond.2.1,
                fun hm => by have := h2' hm; omega, hcond.2.2⟩
            · rw [if_neg hcond] at hgn; cases hgn
  · rw [if_pos hall] at h
    cases h

/-- C6. `split` rejects the entire group spec — returning an error and
producing no shares, whatever the external collaborators would do — whenever
some comma-separated token fails the `<M>of<N>` pattern, or has `M > N`, or
`M = 1` with `N > 1`, or has more than 16 members, or the spec has more than
16 group tokens.  In particular `"1of3"`, `"5of3"` and a 17-token spec are
rejected at parse time. -/
theorem split_rejects_bad_spec {M : Type}
    (fromPhrase : List Char → Except String (M × List Nat))
    (secretNew : List Nat → Except String (List Nat))
    (sskrGenerate : Nat × List (Nat × Nat) → List Nat →
      Except String (List (List (List Nat))))
    (wrapCbor : List Nat → List Nat)
    (spec : List Char) (group_threshold : Nat) (phrase : List Char) (minimal : Bool)
    (hbad :
      (∃ p ∈ splitOnChar ',' spec, parseMofN p = none) ∨
      (∃ p ∈ splitOnChar ',' spec, ∃ m n, parseMofN p = some (m, n) ∧
        (n < m ∨ (m = 1 ∧ 1 < n) ∨ 16 < n)) ∨
      16 < (splitOnChar ',' spec).length) :
    ∃ e, split fromPhrase secretNew sskrGenerate wrapCbor spec group_threshold
      phrase minimal = .error (.spec e) := by
  cases hps : parse_spec spec group_threshold with
  | error e =>
    refine ⟨e, ?_⟩
    unfold split
    rw [hps]
  | ok s =>
    exfalso
    rcases parse_spec_ok_inv spec group_threshold s hps with ⟨hparts, hlen⟩
    rcases hbad with ⟨p, hp, hnone⟩ | ⟨p, hp, m, n, hmn, hviol⟩ | hlen'
    · rcases hparts p hp with ⟨m, n, hsome, _⟩
      rw [hnone] at hsome
      cases hsome
    · rcases hparts p hp with ⟨m', n', hsome, h1, h2, h3, h4⟩
      rw [hmn] at hsome
      injection hsome with hpair
      have hm : m = m' := congrArg Prod.fst hpair
      have hn : n = n' := congrArg Prod.snd hpair
      subst hm
      subst hn
      rcases hviol with h | h | h
      · omega
      · have := h3 h.1
        omega
      · omega
    · omega

/-- Witness for C6: the spec `"1of3"` (a `1ofN` group with `N > 1`) is rejected
whatever the collaborators do. -/
theorem split_rejects_witness :
    ∃ e, split (fun (_ : List Char) => (.error "" : Except String (Nat × List Nat)))
      (fun _ => .error "") (fun _ _ => .error "") (fun l => l)
      ['1', 'o', 'f', '3'] 1 [] false = .error (.spec e) :=
  split_rejects_bad_spec _ _ _ _ ['1', 'o', 'f', '3'] 1 [] false
    (Or.inr (Or.inl ⟨['1', 'o', 'f', '3'], by decide, 1, 3, by decide,
      Or.inr (Or.inl (by decide))⟩))

/-! ## Recovery orchestration (`src/recover.rs`)

The CBOR envelope unwrapping (`CBOR::from_data`, `expect_tagged_value(309)`,
`expect_byte_string`), the engine's `sskr_combine` and bip39's
`Mnemonic::from_entropy` are external collaborators, taken as opaque function
parameters.  `recover` iterates a `HashMap` whose iteration order Rust leaves
unspecified; the embedding takes that order as an explicit `order` parameter —
an enumeration, without duplicates, of the group indices present. -/

/-- One annotated share: the share bytes with the `(identifier, metadata)`
pair `share_metadata` produced for it. -/
abbrev AnnShare : Type := (List Nat) × Nat × ShareMeta

/-- Failure modes of `recover`; constructors carry the data interpolated into
the corresponding `anyhow!`/`bail!` messages (the member-threshold and
not-enough-groups messages print group numbers 1-based; the constructors carry
the raw 0-based values). -/
inductive RecError : Type
  | codec (e : BWError)
  | envelope (msg : String)
  | meta (e : SMError)
  | mismatchedIdentifiers
  | mismatchedGroupParams
  | mismatchedMemberThreshold (group_num : Nat)
  | notEnoughGroups (need : Nat) (satisfied : List Nat)
  | combineFailed (msg : String)
  | mnemonicFailed (entropy : List Nat) (msg : String)
deriving DecidableEq

/-- Outcome of a `recover` run; a Rust panic (index out of bounds) is a
distinguished outcome. -/
inductive RecResult (α : Type) : Type
  | panic
  | error (e : RecError)
  | ok (a : α)
deriving DecidableEq

/-- The metadata loop of `recover`: parse every share's metadata, failing on
the first bad share, and keep each share next to its `(id, meta)`. -/
def annotate (shares : List (List Nat)) (minimal : Bool) :
    Except SMError (List AnnShare) :=
  collectExcept (fun s =>
    match share_metadata s minimal with
    | .ok im => .ok (s, im)
    | .error e => .error e) shares

/-- Rust `shares_by_group[g]`: the annotated shares of group `g`, in input order
(the Rust loop pushes `(i, share)` pairs in index order). -/
def grpOf (ann : List AnnShare) (g : Nat) : List AnnShare :=
  ann.filter (fun a => a.2.2.group_index == g)

/-- Rust `share_meta[shares[0].0][4]`: the member threshold of the first share of a
group (0 for an absent group; the code only reads it for present groups). -/
def groupMth (ann : List AnnShare) (g : Nat) : Nat :=
  match grpOf ann g with
  | [] => 0
  | a :: _ => a.2.2.member_threshold

/-- The per-group member-threshold consistency check of the recover loop. -/
def groupInconsistent (ann : List AnnShare) (g : Nat) : Bool :=
  match grpOf ann g with
  | [] => false
  | a :: rest => rest.any (fun b => b.2.2.member_threshold != a.2.2.member_threshold)

/-- Rust `recoverable_groups`: the groups, in iteration order, with at least
`member_threshold` shares (`shares.len() >= member_threshold`). -/
def recoverableGroups (ann : List AnnShare) (order : List Nat) : List Nat :=
  order.filter (fun g => decide (groupMth ann g ≤ (grpOf ann g).length))

/-- A possible `HashMap` iteration order: every group index present exactly
once, in arbitrary order. -/
def ValidOrder (ann : List AnnShare) (order : List Nat) : Prop :=
  order.Nodup ∧ ∀ g, g ∈ order ↔ g ∈ ann.map (fun a => a.2.2.group_index)

/-- The recoverable-group count check and the gathering loop: every share of
the first `group_threshold` recoverable groups, group-major, each group's
shares in input order. -/
def recover_select (ann : List AnnShare) (gt : Nat) (order : List Nat) :
    RecResult (List (List Nat)) :=
  if (recoverableGroups ann order).length < gt then
    .error (.notEnoughGroups gt (recoverableGroups ann order))
  else
    .ok (((recoverableGroups ann order).take gt).flatMap
      (fun g => (grpOf ann g).map (fun a => a.1)))

/-- The body of `recover` after the metadata loop, for nonempty `ann` with
first element `a0`: the cross-share identifier and group-parameter checks, the
per-group member-threshold check (bailing on the first inconsistent group in
iteration order), then the selection phase. -/
def recover_core_body (ann : List AnnShare) (a0 : AnnShare) (order : List Nat) :
    RecResult (List (List Nat)) :=
  if ann.any (fun a => a.2.1 != a0.2.1) then .error .mismatchedIdentifiers
  else if ann.any (fun a => a.2.2.group_threshold != a0.2.2.group_threshold ||
      a.2.2.group_count != a0.2.2.group_count) then .error .mismatchedGroupParams
  else
    match order.find? (fun g => groupInconsistent ann g) with
    | some g => .error (.mismatchedMemberThreshold g)
    | none => recover_select ann a0.2.2.group_threshold order

/-- Rust `recover` from decoded share payloads on: metadata parsing, then — reading
`share_ids[0]`, a panic on an empty share list — the grouping and selection
phase, returning the share list handed to `sskr_combine`. -/
def recover_core (shares : List (List Nat)) (minimal : Bool) (order : List Nat) :
    RecResult (List (List Nat)) :=
  match annotate shares minimal with
  | .error e => .error (.meta e)
  | .ok ann =>
    match ann with
    | [] => .panic
    | a0 :: _ => recover_core_body ann a0 order

/-- The final phase of `recover`: `sskr_combine` on the gathered shares (its
failure reported as "Error during SSKR combination"), then
`Mnemonic::from_entropy` (its failure reported together with the recovered
entropy). -/
def recover_post {M : Type} (combine : List (List Nat) → Except String (List Nat))
    (fromEntropy : List Nat → Except String M) :
    RecResult (List (List Nat)) → RecResult M
  | .panic => .panic
  | .error e => .error e
  | .ok gathered =>
    match combine gathered with
    | .error msg => .error (.combineFailed msg)
    | .ok secret =>
      match fromEntropy secret with
      | .error msg => .error (.mnemonicFailed secret msg)
      | .ok m => .ok m

/-- The per-line decoding loop of `recover`: Bytewords decode, then the CBOR
envelope unwrap. -/
def decodeLines (unwrapEnvelope : List Nat → Except String (List Nat))
    (lines : List (List Char)) (minimal : Bool) :
    Except RecError (List (List Nat)) :=
  collectExcept (fun line =>
    match byteword_string_to_bytes line minimal with
    | .error e => .error (RecError.codec e)
    | .ok bytes =>
      match unwrapEnvelope bytes with
      | .error msg => .error (RecError.envelope msg)
      | .ok share => .ok share) lines

/-- Rust `pub fn recover(lines: Vec<String>) -> Result<Mnemonic, Error>`: decode
each line (Bytewords, then the CBOR envelope), run the grouping phase, combine,
and convert the secret to a mnemonic. -/
def recover {M : Type} (unwrapEnvelope : List Nat → Except String (List Nat))
    (combine : List (List Nat) → Except String (List Nat))
    (fromEntropy : List Nat → Except String M)
    (lines : List (List Char)) (minimal : Bool) (order : List Nat) : RecResult M :=
  match decodeLines unwrapEnvelope lines minimal with
  | .error e => .error e
  | .ok shares => recover_post combine fromEntropy (recover_core shares minimal order)

theorem recover_select_no_panic (ann : List AnnShare) (gt : Nat)
    (order : List Nat) : recover_select ann gt order ≠ .panic := by
  unfold recover_select
  by_cases h3 : (recoverableGroups ann order).length < gt
  · rw [if_pos h3]
    exact fun h => RecResult.noConfusion h
  · rw [if_neg h3]
    exact fun h => RecResult.noConfusion h

theorem recover_core_body_no_panic (ann : List AnnShare) (a0 : AnnShare)
    (order : List Nat) : recover_core_body ann a0 order ≠ .panic := by
  unfold recover_core_body
  by_cases h1 : ann.any (fun a => a.2.1 != a0.2.1)
  · rw [if_pos h1]
    exact fun h => RecResult.noConfusion h
  · rw [if_neg h1]
    by_cases h2 : ann.any (fun a => a.2.2.group_threshold != a0.2.2.group_threshold ||
        a.2.2.group_count != a0.2.2.group_count)
    · rw [if_pos h2]
      exact fun h => RecResult.noConfusion h
    · rw [if_neg h2]
      cases hfind : order.find? (fun g => groupInconsistent ann g) with
      | some g =>
        show RecResult.error (RecError.mismatchedMemberThreshold g) ≠ RecResult.panic
        exact fun h => RecResult.noConfusion h
      | none =>
        show recover_select ann a0.2.2.group_threshold order ≠ RecResult.panic
        exact recover_select_no_panic ann a0.2.2.group_threshold order

theorem recover_core_no_panic (shares : List (List Nat)) (minimal : Bool)
    (order : List Nat) (hne : shares ≠ []) :
    recover_core shares minimal order ≠ .panic := by
  unfold recover_core
  cases hann : annotate shares minimal with
  | error e => exact fun h => RecResult.noConfusion h
  | ok ann =>
    have hlen := collectExcept_length _ _ _ hann
    cases ann with
    | nil =>
      exfalso
      have : shares.length = 0 := by simpa using hlen.symm
      exact hne (List.length_eq_zero.mp this)
    | cons a0 rest => exact recover_core_body_no_panic (a0 :: rest) a0 order

/-- C3 (counterexample). On the empty list of share lines `recover`
panics: `share_ids[0]` indexes an empty vector. -/
theorem recover_empty_panics_cex :
    recover (M := Nat) (fun l => .ok l) (fun _ => .ok []) (fun _ => .ok 0)
      [] false [] = .panic := rfl

/-- C3 (amended). For every nonempty list of share lines, either
`minimal` setting, any map-iteration order and any behaviour of the external
collaborators, `recover` returns a mnemonic or an error — it never panics.
On the empty list it panics (index out of bounds on `share_ids[0]`). -/
theorem recover_post_no_panic {M : Type}
    (combine : List (List Nat) → Except String (List Nat))
    (fromEntropy : List Nat → Except String M)
    (r : RecResult (List (List Nat))) (hr : r ≠ .panic) :
    recover_post combine fromEntropy r ≠ .panic := by
  cases r with
  | panic => exact absurd rfl hr
  | error e => exact fun h => RecResult.noConfusion h
  | ok gathered =>
    show (match combine gathered with
      | .error msg => RecResult.error (.combineFailed msg)
      | .ok secret =>
        match fromEntropy secret with
        | .error msg => RecResult.error (.mnemonicFailed secret msg)
        | .ok m => RecResult.ok m) ≠ RecResult.panic
    cases combine gathered with
    | error msg => exact fun h => RecResult.noConfusion h
    | ok secret =>
      show (match fromEntropy secret with
        | .error msg => RecResult.error (.mnemonicFailed secret msg)
        | .ok m => RecResult.ok m) ≠ RecResult.panic
      cases fromEntropy secret with
      | error msg => exact fun h => RecResult.noConfusion h
      | ok m => exact fun h => RecResult.noConfusion h

theorem recover_nonempty_no_panic {M : Type}
    (unwrapEnvelope : List Nat → Except String (List Nat))
    (combine : List (List Nat) → Except String (List Nat))
    (fromEntropy : List Nat → Except String M)
    (lines : List (List Char)) (minimal : Bool) (order : List Nat)
    (hne : lines ≠ []) :
    recover unwrapEnvelope combine fromEntropy lines minimal order ≠ .panic := by
  unfold recover
  cases hdec : decodeLines unwrapEnvelope lines minimal with
  | error e => exact fun h => RecResult.noConfusion h
  | ok shares =>
    have hlen := collectExcept_length _ _ _ hdec
    have hsne : shares ≠ [] := by
      intro h
      rw [h] at hlen
      exact hne (List.length_eq_zero.mp (by simpa using hlen.symm))
    show recover_post combine fromEntropy (recover_core shares minimal order) ≠ .panic
    exact recover_post_no_panic _ _ _ (recover_core_no_panic shares minimal order hsne)

/-- Witness for C3 (amended): a concrete one-line run (the line fails to
decode, so the result is an error, not a panic). -/
theorem recover_nonempty_witness :
    ([['a']] : List (List Char)) ≠ [] ∧
    recover (M := Nat) (fun l => .ok l) (fun _ => .ok []) (fun _ => .ok 0)
      [['a']] false [] ≠ .panic :=
  ⟨by decide, recover_nonempty_no_panic (fun l => .ok l) (fun _ => .ok [])
    (fun _ => .ok 0) [['a']] false [] (by decide)⟩

/-! ## Selection and counting facts about `recover_core` -/

/-- The metadata value of a single share (the error side is never read: it is
only used for shares whose metadata parse succeeded). -/
def shareMetaD (s : List Nat) (minimal : Bool) : Nat × ShareMeta :=
  match share_metadata s minimal with
  | .ok im => im
  | .error _ => (0, ⟨0, 0, 0, 0, 0⟩)

/-- The group index carried by a share's own header bytes. -/
def shareGidx (s : List Nat) (minimal : Bool) : Nat :=
  (shareMetaD s minimal).2.group_index

theorem annotate_ok_eq (shares : List (List Nat)) (minimal : Bool)
    (ann : List AnnShare) (h : annotate shares minimal = .ok ann) :
    ann = shares.map (fun s => (s, shareMetaD s minimal)) := by
  have hmem : ∀ s ∈ shares, ∃ im, share_metadata s minimal = .ok im := by
    intro s hs
    rcases collectExcept_ok_mem _ _ _ h s hs with ⟨y, hy⟩
    cases hsm : share_metadata s minimal with
    | ok im => exact ⟨im, rfl⟩
    | error e => rw [hsm] at hy; cases hy
  have hf : ∀ s ∈ shares, (match share_metadata s minimal with
      | .ok im => (Except.ok (s, im) : Except SMError AnnShare)
      | .error e => .error e) = .ok (s, shareMetaD s minimal) := by
    intro s hs
    rcases hmem s hs with ⟨im, him⟩
    rw [him]
    show Except.ok (s, im) = Except.ok (s, shareMetaD s minimal)
    unfold shareMetaD
    rw [him]
  have hcoll := collectExcept_ok_of_forall _ (fun s => (s, shareMetaD s minimal)) shares hf
  unfold annotate at h
  rw [h] at hcoll
  injection hcoll

theorem grpOf_annotate (shares : List (List Nat)) (minimal : Bool) (g : Nat) :
    grpOf (shares.map (fun s => (s, shareMetaD s minimal))) g =
      (shares.filter (fun s => shareGidx s minimal == g)).map
        (fun s => (s, shareMetaD s minimal)) := by
  unfold grpOf
  rw [List.filter_map]
  rfl

theorem grpOf_map_fst (shares : List (List Nat)) (minimal : Bool) (g : Nat) :
    (grpOf (shares.map (fun s => (s, shareMetaD s minimal))) g).map (fun a => a.1) =
      shares.filter (fun s => shareGidx s minimal == g) := by
  rw [grpOf_annotate, List.map_map]
  calc (shares.filter (fun s => shareGidx s minimal == g)).map
        ((fun (a : AnnShare) => a.1) ∘ (fun s => (s, shareMetaD s minimal)))
      = (shares.filter (fun s => shareGidx s minimal == g)).map id :=
        List.map_congr_left (fun s _ => rfl)
    _ = _ := List.map_id _

theorem recover_core_ok_inv (shares : List (List Nat)) (minimal : Bool)
    (order : List Nat) (gathered : List (List Nat))
    (h : recover_core shares minimal order = .ok gathered) :
    ∃ ann a0 rest, annotate shares minimal = .ok ann ∧ ann = a0 :: rest ∧
      a0.2.2.group_threshold ≤ (recoverableGroups ann order).length ∧
      gathered = ((recoverableGroups ann order).take a0.2.2.group_threshold).flatMap
        (fun g => (grpOf ann g).map (fun a => a.1)) := by
  unfold recover_core at h
  cases hann : annotate shares minimal with
  | error e => rw [hann] at h; cases h
  | ok ann =>
    rw [hann] at h
    cases ann with
    | nil =>
      have h' : RecResult.panic = RecResult.ok gathered := h
      cases h'
    | cons a0 rest =>
      have h' : recover_core_body (a0 :: rest) a0 order = .ok gathered := h
      unfold recover_core_body at h'
      by_cases h1 : ((a0 :: rest).any (fun a => a.2.1 != a0.2.1))
      · rw [if_pos h1] at h'; cases h'
      · rw [if_neg h1] at h'
        by_cases h2 : ((a0 :: rest).any (fun a =>
            a.2.2.group_threshold != a0.2.2.group_threshold ||
            a.2.2.group_count != a0.2.2.group_count))
        · rw [if_pos h2] at h'; cases h'
        · rw [if_neg h2] at h'
          cases hfind : order.find? (fun g => groupInconsistent (a0 :: rest) g) with
          | some g =>
            rw [hfind] at h'
            have h'' : RecResult.error (RecError.mismatchedMemberThreshold g) =
              RecResult.ok gathered := h'
            cases h''
          | none =>
            rw [hfind] at h'
            have h'' : recover_select (a0 :: rest) a0.2.2.group_threshold order =
              .ok gathered := h'
            unfold recover_select at h''
            by_cases h3 : (recoverableGroups (a0 :: rest) order).length <
                a0.2.2.group_threshold
            · rw [if_pos h3] at h''; cases h''
            · rw [if_neg h3] at h''
              injection h'' with hg
              exact ⟨a0 :: rest, a0, rest, rfl, rfl, by omega, hg.symm⟩

theorem count_flatMap_eq_sum {α β : Type} [BEq β] (l : List α) (f : α → List β)
    (v : β) : ((l.flatMap f).count v) = (l.map (fun x => (f x).count v)).sum := by
  induction l with
  | nil => rfl
  | cons a rest ih =>
    rw [List.flatMap_cons, List.count_append, List.map_cons, List.sum_cons, ih]

theorem sum_map_ite_single : ∀ (sel : List Nat), sel.Nodup → ∀ (g0 val : Nat),
    (sel.map (fun g => if g0 = g then val else 0)).sum =
      if g0 ∈ sel then val else 0 := by
  intro sel
  induction sel with
  | nil => intro _ g0 val; simp
  | cons a rest ih =>
    intro hnd g0 val
    have hnd' := List.nodup_cons.mp hnd
    rw [List.map_cons, List.sum_cons, ih hnd'.2 g0 val]
    by_cases hg : g0 = a
    · subst hg
      rw [if_pos rfl, if_neg hnd'.1, if_pos (List.mem_cons_self g0 rest)]
      omega
    · rw [if_neg hg]
      by_cases hm : g0 ∈ rest
      · rw [if_pos hm, if_pos (List.mem_cons_of_mem a hm)]
        omega
      · rw [if_neg hm, if_neg (by
          intro hc
          rcases List.mem_cons.mp hc with h | h
          · exact hg h
          · exact hm h)]

theorem count_filter_eq (shares : List (List Nat)) (p : List Nat → Bool)
    (v : List Nat) :
    (shares.filter p).count v = if p v then shares.count v else 0 := by
  by_cases hp : p v
  · rw [if_pos hp, List.count_filter hp]
  · rw [if_neg hp]
    rw [List.count_eq_zero]
    intro hmem
    exact hp (List.of_mem_filter hmem)

/-- What `recover_core` gathers, counted with multiplicity: a share value
appears in the gathered list exactly as often as it was supplied iff its group
is among the first `group_threshold` recoverable groups in iteration order,
and not at all otherwise. -/
theorem recover_core_ok_count (shares : List (List Nat)) (minimal : Bool)
    (order : List Nat) (gathered : List (List Nat)) (hnd : order.Nodup)
    (hok : recover_core shares minimal order = .ok gathered) :
    ∃ ann a0 rest, annotate shares minimal = .ok ann ∧ ann = a0 :: rest ∧
      a0.2.2.group_threshold ≤ (recoverableGroups ann order).length ∧
      ∀ v, gathered.count v =
        if shareGidx v minimal ∈
            (recoverableGroups ann order).take a0.2.2.group_threshold
        then shares.count v else 0 := by
  rcases recover_core_ok_inv shares minimal order gathered hok with
    ⟨ann, a0, rest, hann, hcons, hge, hg⟩
  refine ⟨ann, a0, rest, hann, hcons, hge, ?_⟩
  intro v
  have hmap := annotate_ok_eq shares minimal ann hann
  have hselnd : ((recoverableGroups ann order).take a0.2.2.group_threshold).Nodup :=
    (List.take_sublist _ _).nodup (hnd.filter _)
  have hcnt : ∀ g, ((grpOf ann g).map (fun a => a.1)).count v =
      (if shareGidx v minimal = g then shares.count v else 0) := by
    intro g
    rw [hmap, grpOf_map_fst, count_filter_eq]
    by_cases h : shareGidx v minimal = g
    · rw [if_pos h, if_pos (by simp [h])]
    · rw [if_neg (by simpa using h), if_neg h]
  rw [hg, count_flatMap_eq_sum]
  calc (((recoverableGroups ann order).take a0.2.2.group_threshold).map
        (fun g => ((grpOf ann g).map (fun a => a.1)).count v)).sum
      = (((recoverableGroups ann order).take a0.2.2.group_threshold).map
        (fun g => if shareGidx v minimal = g then shares.count v else 0)).sum := by
        exact congrArg List.sum (List.map_congr_left (fun g _ => hcnt g))
    _ = _ := sum_map_ite_single _ hselnd _ _

/-- C2 (amended). Whenever `recover` reaches the selection step under some
map-iteration order (a duplicate-free enumeration of the group keys), it
selects the first `group_threshold` recoverable groups *in that order* —
exactly `group_threshold` many, pairwise distinct, all recoverable — and
gathers every supplied share of exactly those groups, with multiplicity.  The
`HashMap` iteration order is not fixed across runs, so different runs may
select different groups (see the counterexample); whether that choice affects
the reconstructed secret is a property of the external combine engine, outside
this model. -/
theorem recover_core_selects_threshold_groups (shares : List (List Nat))
    (minimal : Bool) (order : List Nat) (gathered : List (List Nat))
    (hnd : order.Nodup)
    (hok : recover_core shares minimal order = .ok gathered) :
    ∃ ann a0 rest, annotate shares minimal = .ok ann ∧ ann = a0 :: rest ∧
      ((recoverableGroups ann order).take a0.2.2.group_threshold).length =
        a0.2.2.group_threshold ∧
      ((recoverableGroups ann order).take a0.2.2.group_threshold).Nodup ∧
      (∀ g ∈ (recoverableGroups ann order).take a0.2.2.group_threshold,
        g ∈ recoverableGroups ann order) ∧
      (∀ v, gathered.count v =
        if shareGidx v minimal ∈
            (recoverableGroups ann order).take a0.2.2.group_threshold
        then shares.count v else 0) := by
  rcases recover_core_ok_count shares minimal order gathered hnd hok with
    ⟨ann, a0, rest, hann, hcons, hge, hcount⟩
  refine ⟨ann, a0, rest, hann, hcons, ?_, ?_, ?_, hcount⟩
  · rw [List.length_take]
    omega
  · exact (List.take_sublist _ _).nodup (hnd.filter _)
  · exact fun g hgmem => (List.take_sublist _ _).subset hgmem

/-- C2 (counterexample). Two shares in two distinct recoverable groups
with `group_threshold = 1`: under iteration order `[0, 1]` the gathered share
set is group 0's share, under `[1, 0]` it is group 1's share — both orders are
valid duplicate-free enumerations of the same key set, yet the selected groups
(and hence the share list handed to the combine engine) differ, so the
selection is not a fixed deterministic rule. -/
theorem recover_selection_order_dependent_cex :
    recover_core [[0, 0, 1, 0, 0, 7], [0, 0, 1, 16, 1, 9]] false [0, 1] =
      .ok [[0, 0, 1, 0, 0, 7]] ∧
    recover_core [[0, 0, 1, 0, 0, 7], [0, 0, 1, 16, 1, 9]] false [1, 0] =
      .ok [[0, 0, 1, 16, 1, 9]] ∧
    ([0, 1] : List Nat).Nodup ∧ ([1, 0] : List Nat).Nodup ∧
    (∀ g, g ∈ ([0, 1] : List Nat) ↔ g ∈ ([1, 0] : List Nat)) ∧
    recover_core [[0, 0, 1, 0, 0, 7], [0, 0, 1, 16, 1, 9]] false [0, 1] ≠
      recover_core [[0, 0, 1, 0, 0, 7], [0, 0, 1, 16, 1, 9]] false [1, 0] := by
  refine ⟨rfl, rfl, by decide, by decide, ?_, by decide⟩
  intro g
  simp only [List.mem_cons, List.not_mem_nil, or_false]
  tauto

/-- Witness for C2 (amended): the two-share example under order `[0, 1]`. -/
theorem recover_core_selects_witness :
    ∃ ann a0 rest,
      annotate [[0, 0, 1, 0, 0, 7], [0, 0, 1, 16, 1, 9]] false = .ok ann ∧
      ann = a0 :: rest ∧
      ((recoverableGroups ann [0, 1]).take a0.2.2.group_threshold).length =
        a0.2.2.group_threshold ∧
      ((recoverableGroups ann [0, 1]).take a0.2.2.group_threshold).Nodup ∧
      (∀ g ∈ (recoverableGroups ann [0, 1]).take a0.2.2.group_threshold,
        g ∈ recoverableGroups ann [0, 1]) ∧
      (∀ v, (([[0, 0, 1, 0, 0, 7]] : List (List Nat)).count v) =
        if shareGidx v false ∈
            (recoverableGroups ann [0, 1]).take a0.2.2.group_threshold
        then ([[0, 0, 1, 0, 0, 7], [0, 0, 1, 16, 1, 9]] : List (List Nat)).count v
        else 0) :=
  recover_core_selects_threshold_groups
    [[0, 0, 1, 0, 0, 7], [0, 0, 1, 16, 1, 9]] false [0, 1]
    [[0, 0, 1, 0, 0, 7]] (by decide) rfl

/-- C9. Against any iteration order enumerating the group keys, a group is
deemed recoverable exactly when the number of supplied shares carrying its
group index — duplicates counted separately, with no deduplication — is at
least the group's member threshold; and the gathered list handed to the
combine engine preserves each share's full multiplicity (a share value is
passed as often as supplied, or not at all). -/
theorem recoverable_iff_share_count (shares : List (List Nat)) (minimal : Bool)
    (order : List Nat) (ann : List AnnShare) (g : Nat)
    (hann : annotate shares minimal = .ok ann)
    (horder : ∀ k, k ∈ order ↔ k ∈ ann.map (fun a => a.2.2.group_index)) :
    (g ∈ recoverableGroups ann order ↔
      ((∃ s ∈ shares, shareGidx s minimal = g) ∧
        groupMth ann g ≤ shares.countP (fun s => shareGidx s minimal == g))) ∧
    (∀ gathered, order.Nodup → recover_core shares minimal order = .ok gathered →
      ∀ v, gathered.count v = shares.count v ∨ gathered.count v = 0) := by
  have hmap := annotate_ok_eq shares minimal ann hann
  constructor
  · have hkey : ∀ k, (k ∈ ann.map (fun a => a.2.2.group_index) ↔
        ∃ s ∈ shares, shareGidx s minimal = k) := by
      intro k
      rw [hmap, List.map_map]
      constructor
      · intro h
        rcases List.mem_map.mp h with ⟨s, hs, hk⟩
        exact ⟨s, hs, hk⟩
      · rintro ⟨s, hs, hk⟩
        exact List.mem_map.mpr ⟨s, hs, hk⟩
    have hlen : (grpOf ann g).length =
        shares.countP (fun s => shareGidx s minimal == g) := by
      rw [hmap, grpOf_annotate, List.length_map, ← List.countP_eq_length_filter]
    unfold recoverableGroups
    rw [List.mem_filter]
    constructor
    · rintro ⟨hg, hcond⟩
      refine ⟨(hkey g).mp ((horder g).mp hg), ?_⟩
      rw [← hlen]
      exact of_decide_eq_true hcond
    · rintro ⟨hex, hcond⟩
      refine ⟨(horder g).mpr ((hkey g).mpr hex), ?_⟩
      rw [decide_eq_true_eq, hlen]
      exact hcond
  · intro gathered hnd hok v
    rcases recover_core_ok_count shares minimal order gathered hnd hok with
      ⟨ann', a0, rest, _, _, _, hcount⟩
    rw [hcount v]
    by_cases h : shareGidx v minimal ∈
        (recoverableGroups ann' order).take a0.2.2.group_threshold
    · rw [if_pos h]
      exact Or.inl rfl
    · rw [if_neg h]
      exact Or.inr rfl

/-- Witness for C9: group 0 of the two-share example is recoverable, and the
gathered multiplicity dichotomy holds for the successful `[0, 1]`-order run. -/
theorem recoverable_iff_witness :
    (0 ∈ recoverableGroups
        [([0, 0, 1, 0, 0, 7], (0, ⟨0, 1, 2, 0, 1⟩)),
         ([0, 0, 1, 16, 1, 9], (0, ⟨1, 1, 2, 1, 1⟩))] [0, 1] ↔
      ((∃ s ∈ ([[0, 0, 1, 0, 0, 7], [0, 0, 1, 16, 1, 9]] : List (List Nat)),
          shareGidx s false = 0) ∧
        groupMth [([0, 0, 1, 0, 0, 7], (0, ⟨0, 1, 2, 0, 1⟩)),
          ([0, 0, 1, 16, 1, 9], (0, ⟨1, 1, 2, 1, 1⟩))] 0 ≤
          ([[0, 0, 1, 0, 0, 7], [0, 0, 1, 16, 1, 9]] : List (List Nat)).countP
            (fun s => shareGidx s false == 0))) ∧
    (∀ gathered, ([0, 1] : List Nat).Nodup →
      recover_core [[0, 0, 1, 0, 0, 7], [0, 0, 1, 16, 1, 9]] false [0, 1] =
        .ok gathered →
      ∀ v, gathered.count v =
          ([[0, 0, 1, 0, 0, 7], [0, 0, 1, 16, 1, 9]] : List (List Nat)).count v ∨
        gathered.count v = 0) :=
  recoverable_iff_share_count [[0, 0, 1, 0, 0, 7], [0, 0, 1, 16, 1, 9]] false
    [0, 1]
    [([0, 0, 1, 0, 0, 7], (0, ⟨0, 1, 2, 0, 1⟩)),
     ([0, 0, 1, 16, 1, 9], (0, ⟨1, 1, 2, 1, 1⟩))] 0 rfl (fun _ => Iff.rfl)

/-! ## Remaining concrete witnesses for the codec claims -/

/-- Witness for C1: the two-byte sequence `[1, 2]` round-trips in minimal form. -/
theorem byteword_roundtrip_witness :
    byteword_string_to_bytes (byteword_string [1, 2] true) true = .ok [1, 2] :=
  byteword_string_roundtrip [1, 2] (by decide) (by decide) true

/-- Witness for C5: the single full-form word `"able"` resolves but yields
fewer than 5 elements, so decoding fails with the too-short error. -/
theorem bytes_characterization_witness :
    byteword_string_to_bytes ['a', 'b', 'l', 'e'] false =
      .error (.tooShort ['a', 'b', 'l', 'e']) :=
  (((byteword_string_to_bytes_characterization ['a', 'b', 'l', 'e'] false).2
    (by decide)).1 (by decide))

set_option maxRecDepth 100000 in
/-- Witness for C7: flipping bit 5 of the first character of the encoding of
`[0]` (turning `a` into `A`) makes decoding fail. -/
theorem encode_bitflip_witness :
    (∃ t, byteword_string_to_bytes ((byteword_string [0] false).set 0 'A')
        false = .error (.unknownWord t)) ∨
    (∃ s, byteword_string_to_bytes ((byteword_string [0] false).set 0 'A')
        false = .error (.checksumInvalid s)) :=
  encode_bitflip_decode_fails [0] (by decide) (by decide) 0 5 'A'
    (by decide) (by decide)

set_option maxRecDepth 100000 in
/-- Witness for C10 (amended): the odd-length minimal input `"aea"`. -/
theorem odd_minimal_witness :
    ∃ t, byteword_string_to_bytes ['a', 'e', 'a'] true =
        .error (.unknownWord t) ∧
      t ∈ chunks2 ['a', 'e', 'a'] ∧ minimal_to_byteword_opt t = none ∧
      ((∀ t' ∈ chunks2 ['a', 'e', 'a'], t'.length = 2 →
          (minimal_to_byteword_opt t').isSome) →
        t = (chunks2 ['a', 'e', 'a']).getLastD [] ∧ t.length = 1) :=
  odd_minimal_decode_unknown_word ['a', 'e', 'a'] (by decide)

end SskrTool
